import Mathlib

set_option maxRecDepth 16384

/-!
Verification of the rslua compiler backend and lexer numeric conversion.

The development shallowly embeds the Rust sources `src/proto.rs`,
`src/compiler.rs` and `src/lexer.rs`.  The crate modules `ast.rs`,
`opcodes.rs`, `consts.rs`, `types.rs` and `ast_walker.rs` are not part of
the sources; the definitions taken from them are modelled from the
specification and are marked as such in their doc comments.

Machine integers are modelled as `Nat`/`Int` with explicit reductions
modulo the relevant power of two where the Rust code can wrap.  Fallible
or panicking code paths (`todo!()`, `unreachable!()`, `unwrap()`,
out-of-bounds indexing, `CompileError`, debug-mode integer underflow)
return `Option`, with `none` standing for any abort.
-/

namespace Rslua

/-! ### Instruction encoding

Modelled from the spec: `opcodes.rs` is not among the sources.  The spec
fixes the Lua 5.3 layout `[opcode:6][A:8][C:9][B:9]` with `ABx`/`AsBx`
using an 18-bit `Bx` field in place of C and B, and `sBx` biased by
`2^17 - 1`.  An instruction is represented by its opcode together with
the 8-bit A field and the combined 18-bit Bx field (`Bx = B * 512 + C`),
each stored reduced modulo its width, which is exactly the information
content of the packed 32-bit word. -/

inductive OpCode where
  | Move | LoadK | LoadBool | LoadNil
  | Add | Sub | Mul | Mod | Pow | Div | IDiv
  | BAdd | BOr | BXor | Shl | Shr | Concat
  | Unm | BNot | Not | Len
  | Eq | Lt | Le
  | Jmp | TestSet | Return
  deriving DecidableEq

structure Instruction where
  op : OpCode
  a : Nat
  bx : Nat
  deriving DecidableEq

/-- RK flag bit: a set bit 8 marks a constant-table reference. -/
def MASK_K : Nat := 256

/-- Sentinel sBx value marking an unresolved jump. -/
def NO_JUMP : Int := -1

/-- Bias used to store the signed 18-bit sBx field. -/
def sBxBias : Nat := 131071

namespace Instruction

def create_ABC (op : OpCode) (a b c : Nat) : Instruction :=
  ⟨op, a % 256, (b % 512) * 512 + (c % 512)⟩

def create_ABx (op : OpCode) (a bx : Nat) : Instruction :=
  ⟨op, a % 256, bx % 262144⟩

def create_AsBx (op : OpCode) (a : Nat) (sbx : Int) : Instruction :=
  ⟨op, a % 256, (sbx + 131071).toNat % 262144⟩

def get_arg_A (i : Instruction) : Nat := i.a

def get_arg_B (i : Instruction) : Nat := i.bx / 512

def get_arg_C (i : Instruction) : Nat := i.bx % 512

def get_arg_sBx (i : Instruction) : Int := (i.bx : Int) - 131071

def set_arg_A (i : Instruction) (a : Nat) : Instruction :=
  { i with a := a % 256 }

def set_arg_sBx (i : Instruction) (v : Int) : Instruction :=
  { i with bx := (v + 131071).toNat % 262144 }

/-- Modelled from the spec: `save(target)` rewrites the A field in place. -/
def save (i : Instruction) (target : Nat) : Instruction :=
  i.set_arg_A target

end Instruction

/-! ### Constants

Modelled from the spec: `consts.rs` is not among the sources.  `Const` is
the union of `Int(i64)`, `Float(f64)` and `Str`; floats compare by their
bit pattern, which is represented here as an opaque `Nat`.  Floating
point arithmetic itself is irrelevant to every property verified below,
so the folding operations return the unspecified bit pattern `0` for any
float result. -/

inductive Const where
  | Int (v : Int)
  | Float (bits : Nat)
  | Str (s : String)
  deriving DecidableEq

/-- Reduce an integer to the two's-complement value of its low 64 bits,
the wrapping behaviour of `i64` arithmetic. -/
def wrap64 (x : Int) : Int := (x + 2 ^ 63) % 2 ^ 64 - 2 ^ 63

/-- View of the low 64 bits of an integer as a natural number. -/
def bits64 (x : Int) : Nat := (x % 2 ^ 64).toNat

namespace Const

/-- Modelled from the spec: integer arithmetic wraps modulo `2^64`; an
operation on operand kinds it is not defined on is a compile error
(`none`); float results are abstracted. -/
def add : Const → Const → Option (Option Const)
  | .Int a, .Int b => some (some (.Int (wrap64 (a + b))))
  | .Int _, .Float _ | .Float _, .Int _ | .Float _, .Float _ =>
      some (some (.Float 0))
  | _, _ => none

def sub : Const → Const → Option (Option Const)
  | .Int a, .Int b => some (some (.Int (wrap64 (a - b))))
  | .Int _, .Float _ | .Float _, .Int _ | .Float _, .Float _ =>
      some (some (.Float 0))
  | _, _ => none

def mul : Const → Const → Option (Option Const)
  | .Int a, .Int b => some (some (.Int (wrap64 (a * b))))
  | .Int _, .Float _ | .Float _, .Int _ | .Float _, .Float _ =>
      some (some (.Float 0))
  | _, _ => none

/-- Modelled from the spec: `Div` coerces to float. -/
def div : Const → Const → Option (Option Const)
  | .Int _, .Int _ | .Int _, .Float _ | .Float _, .Int _ | .Float _, .Float _ =>
      some (some (.Float 0))
  | _, _ => none

/-- Modelled from the spec: integer floor division; division by zero is a
compile error. -/
def idiv : Const → Const → Option (Option Const)
  | .Int _, .Int 0 => none
  | .Int a, .Int b => some (some (.Int (wrap64 (Int.fdiv a b))))
  | .Int _, .Float _ | .Float _, .Int _ | .Float _, .Float _ =>
      some (some (.Float 0))
  | _, _ => none

/-- Modelled from the spec: integer modulus; modulus by zero is a compile
error. -/
def mod_ : Const → Const → Option (Option Const)
  | .Int _, .Int 0 => none
  | .Int a, .Int b => some (some (.Int (wrap64 (Int.fmod a b))))
  | .Int _, .Float _ | .Float _, .Int _ | .Float _, .Float _ =>
      some (some (.Float 0))
  | _, _ => none

/-- Modelled from the spec: `Pow` coerces to float. -/
def pow : Const → Const → Option (Option Const)
  | .Int _, .Int _ | .Int _, .Float _ | .Float _, .Int _ | .Float _, .Float _ =>
      some (some (.Float 0))
  | _, _ => none

/-- Modelled from the spec: bitwise ops require integer operands;
anything else is a compile error. -/
def band : Const → Const → Option (Option Const)
  | .Int a, .Int b => some (some (.Int (wrap64 (bits64 a &&& bits64 b))))
  | _, _ => none

def bor : Const → Const → Option (Option Const)
  | .Int a, .Int b => some (some (.Int (wrap64 (bits64 a ||| bits64 b))))
  | _, _ => none

def bxor : Const → Const → Option (Option Const)
  | .Int a, .Int b => some (some (.Int (wrap64 (bits64 a ^^^ bits64 b))))
  | _, _ => none

/-- Modelled from the spec: left shift on 64-bit values; shifts past the
width produce 0, the spec leaves the edge cases open. -/
def shl : Const → Const → Option (Option Const)
  | .Int a, .Int b =>
      if 0 ≤ b ∧ b < 64 then some (some (.Int (wrap64 (bits64 a <<< b.toNat))))
      else some (some (.Int 0))
  | _, _ => none

def shr : Const → Const → Option (Option Const)
  | .Int a, .Int b =>
      if 0 ≤ b ∧ b < 64 then some (some (.Int (wrap64 (bits64 a >>> b.toNat))))
      else some (some (.Int 0))
  | _, _ => none

/-- Modelled from the spec: unary minus on numeric operands. -/
def minus : Const → Option (Option Const)
  | .Int a => some (some (.Int (wrap64 (-a))))
  | .Float _ => some (some (.Float 0))
  | _ => none

/-- Modelled from the spec: bitwise complement requires an integer. -/
def bnot : Const → Option (Option Const)
  | .Int a => some (some (.Int (wrap64 (-a - 1))))
  | _ => none

end Const

/-! ### AST

Modelled from the spec: `ast.rs` is not among the sources.  The
expression and statement forms are exactly those of the data model in the
spec; source-location payloads are dropped. -/

inductive BinOp where
  | Add | Minus | Mul | Div | IDiv | Mod | Pow | Concat
  | BAnd | BOr | BXor | Shl | Shr
  | Eq | Ne | Lt | Le | Gt | Ge
  | And | Or
  deriving DecidableEq

/-- Modelled from the spec: the comparison operators. -/
def BinOp.is_comp : BinOp → Bool
  | .Eq | .Ne | .Lt | .Le | .Gt | .Ge => true
  | _ => false

inductive UnOp where
  | Minus | Not | BNot | Len
  deriving DecidableEq

inductive Expr where
  | Int (v : Int)
  | Float (bits : Nat)
  | String (s : String)
  | Nil
  | True
  | False
  | Name (name : String)
  | BinExpr (op : BinOp) (left right : Expr)
  | UnExpr (op : UnOp) (expr : Expr)
  | ParenExpr (expr : Expr)
  deriving DecidableEq

/-- Modelled from the spec: none of the expression forms of the data
model is a call or vararg, so no expression has multiple return values. -/
def Expr.has_mult_ret : Expr → Bool := fun _ => false

inductive Assignable where
  | Name (name : String)
  | ParenExpr
  | SuffixedExpr
  deriving DecidableEq

inductive Stat where
  | LocalStat (names : List String) (exprs : List Expr)
  | AssignStat (left : List Assignable) (right : List Expr)
  deriving DecidableEq

/-- Modelled from the spec: a block is its ordered list of statements. -/
def Block := List Stat

/-! ### Proto (`src/proto.rs`) -/

structure LocalVal where
  name : String
  deriving DecidableEq

/-- The function prototype of `proto.rs`.  The `const_map` hash map is
represented as an association list (`add_const` never inserts a key
twice, so hash-map and association-list lookup agree).  The `up_vars`
and `protos` fields are never populated by the compiled subset and are
omitted. -/
structure Proto where
  stack_size : Nat
  param_count : Nat
  code : List Instruction
  consts : List Const
  const_map : List (Const × Nat)
  local_vars : List LocalVal
  deriving DecidableEq

/-- The `Default` instance of `Proto`: stack size starts at 2. -/
def Proto.default : Proto := ⟨2, 0, [], [], [], []⟩

namespace Proto

def code_return (p : Proto) (first nret : Nat) : Nat × Proto :=
  let p' := { p with code := p.code ++ [Instruction.create_ABC .Return first (nret + 1) 0] }
  (p'.code.length - 1, p')

/-- The `n - 1` is u32 subtraction; every call site passes `n ≥ 1`, for
`n = 0` the model truncates where debug Rust would panic. -/
def code_nil (p : Proto) (start_reg n : Nat) : Nat × Proto :=
  let p' := { p with code := p.code ++ [Instruction.create_ABC .LoadNil start_reg (n - 1) 0] }
  (p'.code.length - 1, p')

def code_bool (p : Proto) (reg : Nat) (v : Bool) (pc : Nat) : Nat × Proto :=
  let p' := { p with code := p.code ++ [Instruction.create_ABC .LoadBool reg (if v then 1 else 0) pc] }
  (p'.code.length - 1, p')

def code_const (p : Proto) (reg_index const_index : Nat) : Nat × Proto :=
  let p' := { p with code := p.code ++ [Instruction.create_ABx .LoadK reg_index const_index] }
  (p'.code.length - 1, p')

def code_move (p : Proto) (reg src : Nat) : Nat × Proto :=
  let p' := { p with code := p.code ++ [Instruction.create_ABC .Move reg src 0] }
  (p'.code.length - 1, p')

/-- Opcode selection of `Proto::code_bin_op`; `none` is the
`unreachable!()` arm. -/
def bin_opcode : BinOp → Option OpCode
  | .Add => some .Add
  | .Minus => some .Sub
  | .Mul => some .Mul
  | .Mod => some .Mod
  | .Pow => some .Pow
  | .Div => some .Div
  | .IDiv => some .IDiv
  | .BAnd => some .BAdd
  | .BOr => some .BOr
  | .BXor => some .BXor
  | .Shl => some .Shl
  | .Shr => some .Shr
  | .Concat => some .Concat
  | _ => none

def code_bin_op (p : Proto) (op : BinOp) (target left right : Nat) :
    Option (Nat × Proto) :=
  match bin_opcode op with
  | some oc =>
      let p' := { p with code := p.code ++ [Instruction.create_ABC oc target left right] }
      some (p'.code.length - 1, p')
  | none => none

/-- Opcode selection of `Proto::code_comp`; `none` is the
`unreachable!()` arm. -/
def comp_opcode : BinOp → Option OpCode
  | .Lt | .Gt => some .Lt
  | .Ne | .Eq => some .Eq
  | .Le | .Ge => some .Le
  | _ => none

def code_comp (p : Proto) (op : BinOp) (left right : Nat) :
    Option (Nat × Proto) :=
  match comp_opcode op with
  | some oc =>
      let cond : Nat := match op with
        | .Ne => 0
        | _ => 1
      let p' := { p with code := p.code ++ [Instruction.create_ABC oc cond left right] }
      some (p'.code.length - 1, p')
  | none => none

def un_opcode : UnOp → OpCode
  | .Minus => .Unm
  | .BNot => .BNot
  | .Not => .Not
  | .Len => .Len

def code_un_op (p : Proto) (op : UnOp) (target src : Nat) : Nat × Proto :=
  let p' := { p with code := p.code ++ [Instruction.create_ABC (un_opcode op) target src 0] }
  (p'.code.length - 1, p')

def code_jmp (p : Proto) (offset : Int) (upvars : Nat) : Nat × Proto :=
  let p' := { p with code := p.code ++ [Instruction.create_AsBx .Jmp upvars offset] }
  (p'.code.length - 1, p')

/-- In-place mutation through `get_instruction`; an out-of-range index is
a Rust panic, hence `none`. -/
def modifyInstr (p : Proto) (index : Nat) (f : Instruction → Instruction) :
    Option Proto :=
  match p.code.get? index with
  | some ins => some { p with code := p.code.set index (f ins) }
  | none => none

def fix_jump_pos (p : Proto) (pos pc : Nat) : Option Proto :=
  p.modifyInstr pc (fun i => i.set_arg_sBx ((pos : Int) - (pc : Int) - 1))

def add_local_var (p : Proto) (name : String) : Proto :=
  { p with local_vars := p.local_vars ++ [⟨name⟩] }

/-- `iter().position(..)`: index of the first matching element. -/
def position (name : String) : List LocalVal → Option Nat
  | [] => none
  | var :: rest =>
      if var.name = name then some 0 else (position name rest).map (· + 1)

def get_local_var (p : Proto) (name : String) : Option Nat :=
  position name p.local_vars

def map_get (m : List (Const × Nat)) (k : Const) : Option Nat :=
  (m.find? (fun e => e.1 = k)).map (fun e => e.2)

def add_const (p : Proto) (k : Const) : Nat × Proto :=
  match map_get p.const_map k with
  | some index => (index, p)
  | none =>
      let index := p.consts.length
      (index, { p with
        consts := p.consts ++ [k],
        const_map := p.const_map ++ [(k, index)] })

/-- `save` retargets the A field of the last emitted instruction when
there is one; the returned `code.len() - 1` is usize arithmetic, never
used by any caller, and truncates at 0 in the model. -/
def save (p : Proto) (target : Nat) : Nat × Proto :=
  match p.code.getLast? with
  | some last =>
      (p.code.length - 1,
       { p with code := p.code.dropLast ++ [last.save target] })
  | none => (p.code.length - 1, p)

end Proto

/-! ### ProtoContext (`src/proto.rs`)

The extra `max_top` field is a specification-only ghost: it records the
supremum of every value `reg_top` has taken, is updated exclusively in
`reserve_regs` (the only operation that increases `reg_top`), and is
read by no modelled source operation. -/

structure ProtoContext where
  reg_top : Nat
  max_top : Nat
  proto : Proto
  deriving DecidableEq

/-- The starting context of `push_proto` (`ProtoContext::default()`). -/
def ProtoContext.new : ProtoContext := ⟨0, 0, Proto.default⟩

namespace ProtoContext

def check_stack (c : ProtoContext) (n : Nat) : ProtoContext :=
  let new_stack := c.reg_top + n
  if new_stack > c.proto.stack_size then
    { c with proto := { c.proto with stack_size := new_stack } }
  else c

def reserve_regs (c : ProtoContext) (n : Nat) : Nat × ProtoContext :=
  let c' := c.check_stack n
  let index := c'.reg_top
  let c'' := { c' with reg_top := c'.reg_top + n }
  (index, { c'' with max_top := max c''.max_top c''.reg_top })

def get_reg_top (c : ProtoContext) : Nat := c.reg_top

/-- `reg_top -= n` underflows when `n > reg_top` (a debug-mode panic),
modelled as `none`. -/
def free_reg (c : ProtoContext) (n : Nat) : Option ProtoContext :=
  if n ≤ c.reg_top then some { c with reg_top := c.reg_top - n } else none

end ProtoContext

/-! ### Compiler (`src/compiler.rs`)

The compiler only ever pushes a single `ProtoContext` (function
expressions are unimplemented in the source), so the context stack is
modelled by the one current `ProtoContext`.  The expression-lowering
functions are mutually recursive through non-structural wrappers; they
take an explicit fuel argument that strictly decreases on every call, so
that all definitions are structurally recursive and kernel-computable.
Exhausted fuel yields `none`; all theorems below quantify over the fuel,
and `Compiler.run` supplies a fuel that is generous for its block. -/

structure Reg where
  reg : Nat
  temp : Bool
  mutable : Bool
  deriving DecidableEq

namespace Reg

def is_temp (r : Reg) : Bool := r.temp

def is_const (r : Reg) : Bool := !r.mutable

def resolve (r : Reg) (c : ProtoContext) : Option ProtoContext :=
  if r.is_temp then c.free_reg 1 else some c

end Reg

structure Jump where
  reg : Reg
  pc : Nat
  true_jumps : List Nat
  false_jumps : List Nat
  deriving DecidableEq

namespace Jump

def new (reg : Reg) (pc : Nat) : Jump := ⟨reg, pc, [], []⟩

def fix (j : Jump) (target : Nat) (p : Proto) : Option Proto :=
  p.modifyInstr j.pc (fun i => i.set_arg_sBx ((target : Int) - (j.pc : Int) - 1))

def resolve (j : Jump) (c : ProtoContext) : Option ProtoContext :=
  let target := j.reg.reg
  let p1 := (c.proto.code_bool target false 1).2
  let (jmp_pos, p2) := p1.code_bool target true 0
  match j.fix jmp_pos p2 with
  | some p3 => j.reg.resolve { c with proto := p3 }
  | none => none

/-- `1 - get_arg_A()` is u32 arithmetic whose result lands in the 8-bit A
field, i.e. `(1 - a) mod 256`; `pc - 1` underflows (panics) when
`pc = 0`. -/
def inverse (j : Jump) (c : ProtoContext) : Option ProtoContext :=
  if j.pc = 0 then none
  else
    match c.proto.modifyInstr (j.pc - 1)
        (fun i => i.set_arg_A ((257 - i.get_arg_A) % 256)) with
    | some p' => some { c with proto := p' }
    | none => none

end Jump

inductive ExprResult where
  | Const (k : Const)
  | Reg (r : Reg)
  | Nil
  | True
  | False
  | Jump (j : Jump)
  deriving DecidableEq

def ExprResult.new_const (k : Rslua.Const) : ExprResult := .Const k

def ExprResult.new_reg (reg : Nat) : ExprResult := .Reg ⟨reg, false, true⟩

def ExprResult.new_temp_reg (reg : Nat) : ExprResult := .Reg ⟨reg, true, true⟩

def ExprResult.new_const_reg (reg : Nat) : ExprResult := .Reg ⟨reg, false, false⟩

def ExprResult.new_jump (reg : Rslua.Reg) (pc : Nat) : ExprResult := .Jump (Jump.new reg pc)

/-- `get_rk`: a constant is interned and tagged with `MASK_K`; `none` is
the `unreachable!()` arm for `Nil`/`True`/`False`. -/
def ExprResult.get_rk : ExprResult → ProtoContext → Option (Nat × ProtoContext)
  | .Const k, c =>
      let (index, p') := c.proto.add_const k
      some (MASK_K ||| index, { c with proto := p' })
  | .Reg i, c => some (i.reg, c)
  | .Jump j, c => some (j.reg.reg, c)
  | _, _ => none

def ExprResult.resolve : ExprResult → ProtoContext → Option ProtoContext
  | .Reg r, c => r.resolve c
  | .Jump j, c => j.resolve c
  | _, c => some c

namespace Compiler

/-- `try_const_folding`: pure and bottom-up; the outer `none` is a
propagated `CompileError`, `some none` means "does not fold". -/
def const_folding_bin_op (op : BinOp) (l r : Const) : Option (Option Const) :=
  match op with
  | .Add => l.add r
  | .Minus => l.sub r
  | .Mul => l.mul r
  | .Div => l.div r
  | .IDiv => l.idiv r
  | .Mod => l.mod_ r
  | .Pow => l.pow r
  | .BAnd => l.band r
  | .BOr => l.bor r
  | .BXor => l.bxor r
  | .Shl => l.shl r
  | .Shr => l.shr r
  | _ => some none

def const_folding_un_op (op : UnOp) (k : Const) : Option (Option Const) :=
  match op with
  | .Minus => k.minus
  | .BNot => k.bnot
  | _ => some none

def try_const_folding : Expr → Option (Option Const)
  | .Int i => some (some (.Int i))
  | .Float f => some (some (.Float f))
  | .String s => some (some (.Str s))
  | .BinExpr op left right =>
      match op with
      | .Add | .Minus | .Mul | .Div | .IDiv | .Mod | .Pow
      | .BAnd | .BOr | .BXor | .Shl | .Shr =>
          (match try_const_folding left, try_const_folding right with
          | some (some l), some (some r) =>
              (match const_folding_bin_op op l r with
              | some (some k) => some (some k)
              | some none => some none
              | none => none)
          | some _, some _ => some none
          | none, _ => none
          | some _, none => none)
      | _ => some none
  | .UnExpr op e =>
      match op with
      | .BNot | .Minus =>
          (match try_const_folding e with
          | some (some k) =>
              (match const_folding_un_op op k with
              | some (some k') => some (some k')
              | some none => some none
              | none => none)
          | some none => some none
          | none => none)
      | _ => some none
  | .ParenExpr e => try_const_folding e
  | _ => some none

/-- `code_un_op`: RK of the operand, output register, free the operand's
temp, emit the unary opcode. -/
def code_un_op (op : UnOp) (input : Option Nat) (e : ExprResult)
    (c : ProtoContext) : Option (ExprResult × ProtoContext) :=
  match e.get_rk c with
  | none => none
  | some (src, c1) =>
      let (target, c2) := match input with
        | some r => (r, c1)
        | none => c1.reserve_regs 1
      match e.resolve c2 with
      | none => none
      | some c3 =>
          let (_, p') := c3.proto.code_un_op op target src
          let c4 := { c3 with proto := p' }
          match input with
          | some input_reg => some (ExprResult.new_reg input_reg, c4)
          | none => some (ExprResult.new_temp_reg target, c4)

/-- `Compiler::code_comp`: swap operands for `Gt`/`Ge`, emit the
comparison and the `NO_JUMP` sentinel jump, return a `Jump`. -/
def code_comp (op : BinOp) (target : ExprResult) (left right : Nat)
    (c : ProtoContext) : Option (ExprResult × ProtoContext) :=
  match target with
  | .Reg reg =>
      let (left, right) := match op with
        | .Ge | .Gt => (right, left)
        | _ => (left, right)
      match c.proto.code_comp op left right with
      | none => none
      | some (_, p1) =>
          let (jump, p2) := p1.code_jmp NO_JUMP 0
          some (ExprResult.new_jump reg jump, { c with proto := p2 })
  | _ => none

/-- `code_and`: constant left operands fold to the right result; the
`Jump` and general cases are `todo!()` in the source. -/
def code_and (_target left right : ExprResult) (c : ProtoContext) :
    Option (ExprResult × ProtoContext) :=
  match left with
  | .True | .Const _ => some (right, c)
  | _ => none

/-- The input register is reusable for the right operand only if the left
result lies strictly below it. -/
def is_input_reusable (r input : Nat) : Bool := r < input

mutual

def expr (fuel : Nat) (e : Expr) (reg : Option Nat) (c : ProtoContext) :
    Option (ExprResult × ProtoContext) :=
  match fuel with
  | 0 => none
  | fuel + 1 =>
    match e with
    | .Int i => some (ExprResult.new_const (.Int i), c)
    | .Float f => some (ExprResult.new_const (.Float f), c)
    | .String s =>
        let k : Const := .Str s
        let (_, p') := c.proto.add_const k
        some (ExprResult.new_const k, { c with proto := p' })
    | .Nil => some (.Nil, c)
    | .True => some (.True, c)
    | .False => some (.False, c)
    | .Name name =>
        (match c.proto.get_local_var name with
        | some src => some (ExprResult.new_const_reg src, c)
        | none => none)
    | .BinExpr _ _ _ | .UnExpr _ _ => folding_or_code fuel e reg c
    | .ParenExpr inner => folding_or_code fuel inner reg c

def folding_or_code (fuel : Nat) (e : Expr) (reg : Option Nat)
    (c : ProtoContext) : Option (ExprResult × ProtoContext) :=
  match fuel with
  | 0 => none
  | fuel + 1 =>
    match try_const_folding e with
    | none => none
    | some (some k) => some (ExprResult.new_const k, c)
    | some none => code_expr fuel e reg c

def code_expr (fuel : Nat) (e : Expr) (reg : Option Nat)
    (c : ProtoContext) : Option (ExprResult × ProtoContext) :=
  match fuel with
  | 0 => none
  | fuel + 1 =>
    match e with
    | .BinExpr op left right => code_bin_op fuel op reg left right c
    | .UnExpr op inner =>
        if op = .Not then code_not fuel reg inner c
        else
          (match expr fuel inner reg c with
          | none => none
          | some (result, c1) => code_un_op op reg result c1)
    | _ => none

def code_bin_op (fuel : Nat) (op : BinOp) (input : Option Nat)
    (left_expr right_expr : Expr) (c : ProtoContext) :
    Option (ExprResult × ProtoContext) :=
  match fuel with
  | 0 => none
  | fuel + 1 =>
    match expr fuel left_expr input c with
    | none => none
    | some (left, c1) =>
      match left.resolve c1 with
      | none => none
      | some c2 =>
        let right_input : Option Nat := match input with
          | some input_reg =>
              (match left with
              | .Reg r => if !is_input_reusable r.reg input_reg then none else input
              | .Jump j => if !is_input_reusable j.reg.reg input_reg then none else input
              | _ => input)
          | none => none
        match expr fuel right_expr right_input c2 with
        | none => none
        | some (right, c3) =>
          match right.resolve c3 with
          | none => none
          | some c4 =>
            let (reg, c5) := match input with
              | some r => (r, c4)
              | none => c4.reserve_regs 1
            let result := if input.isSome then ExprResult.new_reg reg
              else ExprResult.new_temp_reg reg
            match op with
            | .And => code_and result left right c5
            | _ =>
              if op.is_comp then
                match left.get_rk c5 with
                | none => none
                | some (left_rk, c6) =>
                  match right.get_rk c6 with
                  | none => none
                  | some (right_rk, c7) => code_comp op result left_rk right_rk c7
              else
                match left.get_rk c5 with
                | none => none
                | some (left_rk, c6) =>
                  match right.get_rk c6 with
                  | none => none
                  | some (right_rk, c7) =>
                    match c7.proto.code_bin_op op reg left_rk right_rk with
                    | none => none
                    | some (_, p') => some (result, { c7 with proto := p' })

def code_not (fuel : Nat) (input : Option Nat) (e : Expr)
    (c : ProtoContext) : Option (ExprResult × ProtoContext) :=
  match fuel with
  | 0 => none
  | fuel + 1 =>
    match try_const_folding e with
    | none => none
    | some (some _) => some (.False, c)
    | some none =>
      match expr fuel e input c with
      | none => none
      | some (result, c1) =>
        match result with
        | .Jump j =>
            (match j.inverse c1 with
            | some c2 => some (.Jump j, c2)
            | none => none)
        | .Nil | .False => some (.True, c1)
        | .Const _ | .True => some (.False, c1)
        | r => code_un_op .Not input r c1

end

/-- `expr_and_save`: lower into a register and materialise the result. -/
def expr_and_save (fuel : Nat) (e : Expr) (save_reg : Option Nat)
    (c : ProtoContext) : Option (Nat × ProtoContext) :=
  let (reg, c1) := match save_reg with
    | some r => (r, c)
    | none => c.reserve_regs 1
  let (temp_reg, c2) := if some reg ≠ save_reg then (reg, c1)
    else c1.reserve_regs 1
  match expr fuel e (some temp_reg) c2 with
  | none => none
  | some (result, c3) =>
    let after : Option ProtoContext :=
      match result with
      | .Const k =>
          let (index, p1) := c3.proto.add_const k
          some { c3 with proto := (p1.code_const reg index).2 }
      | .Reg src =>
          if src.is_const then some { c3 with proto := (c3.proto.code_move reg src.reg).2 }
          else some { c3 with proto := (c3.proto.save reg).2 }
      | .True => some { c3 with proto := (c3.proto.code_bool reg true 0).2 }
      | .False => some { c3 with proto := (c3.proto.code_bool reg false 0).2 }
      | .Nil => some { c3 with proto := (c3.proto.code_nil reg 1).2 }
      | .Jump j => j.resolve c3
    match after with
    | none => none
    | some c4 =>
        if temp_reg ≠ reg then
          match c4.free_reg 1 with
          | some c5 => some (reg, c5)
          | none => none
        else some (reg, c4)

/-- `get_assinable_reg`: only `Name` is implemented, and the `unwrap()`
on a missing local is a panic. -/
def get_assinable_reg (a : Assignable) (c : ProtoContext) : Option Nat :=
  match a with
  | .Name name => c.proto.get_local_var name
  | _ => none

/-- `adjust_assign`: pad missing right-hand sides with one `LoadNil`. -/
def adjust_assign (num_left : Nat) (exprs : List Expr) (c : ProtoContext) :
    Option (Int × ProtoContext) :=
  let check : Option Unit := match exprs.getLast? with
    | some last => if last.has_mult_ret then none else some ()
    | none => some ()
  match check with
  | none => none
  | some _ =>
    let extra : Int := (num_left : Int) - (exprs.length : Int)
    if extra > 0 then
      let «from» := c.get_reg_top
      let (_, c1) := c.reserve_regs extra.toNat
      let (_, p') := c1.proto.code_nil «from» extra.toNat
      some (extra, { c1 with proto := p' })
    else some (extra, c)

/-- The `for expr in stat.exprs` loop of `local_stat`. -/
def save_exprs (fuel : Nat) (exprs : List Expr) (c : ProtoContext) :
    Option ProtoContext :=
  match exprs with
  | [] => some c
  | e :: rest =>
      match expr_and_save fuel e none c with
      | none => none
      | some (_, c1) => save_exprs fuel rest c1

def local_stat (fuel : Nat) (names : List String) (exprs : List Expr)
    (c : ProtoContext) : Option ProtoContext :=
  let p' := names.foldl (fun p n => p.add_local_var n) c.proto
  match save_exprs fuel exprs { c with proto := p' } with
  | none => none
  | some c1 =>
      match adjust_assign names.length exprs c1 with
      | none => none
      | some (_, c2) => some c2

/-- The right-hand-side loop of `assign_stat`, accumulating the pending
moves. -/
def assign_rhs (fuel : Nat) (left : List Assignable) (rlen : Nat)
    (use_temp_reg : Bool) (i : Nat) (rem : List Expr)
    (to_move : List (Nat × Nat)) (c : ProtoContext) :
    Option (List (Nat × Nat) × ProtoContext) :=
  match rem with
  | [] => some (to_move, c)
  | e :: rest =>
      if i ≠ rlen - 1 ∨ use_temp_reg then
        match expr_and_save fuel e none c with
        | none => none
        | some (reg, c1) =>
            if i < left.length then
              match left.get? i with
              | none => none
              | some a =>
                  match get_assinable_reg a c1 with
                  | none => none
                  | some target =>
                      assign_rhs fuel left rlen use_temp_reg (i + 1) rest
                        (to_move ++ [(target, reg)]) c1
            else assign_rhs fuel left rlen use_temp_reg (i + 1) rest to_move c1
      else
        match left.get? i with
        | none => none
        | some a =>
            match get_assinable_reg a c with
            | none => none
            | some reg =>
                match expr_and_save fuel e (some reg) c with
                | none => none
                | some (_, c1) =>
                    assign_rhs fuel left rlen use_temp_reg (i + 1) rest to_move c1

/-- The nil-padding moves of `assign_stat`: for `i` in `0..extra`, move
from register `reg + i` to the assignable at `left_start + i`. -/
def nil_moves (left : List Assignable) (left_start reg i extra : Nat)
    (to_move : List (Nat × Nat)) (c : ProtoContext) :
    Option (List (Nat × Nat)) :=
  if _h : i < extra then
    match left.get? (left_start + i) with
    | none => none
    | some a =>
        match get_assinable_reg a c with
        | none => none
        | some target =>
            nil_moves left left_start reg (i + 1) extra
              (to_move ++ [(target, reg + i)]) c
  else some to_move
termination_by extra - i

/-- The apply-moves loop of `assign_stat`: emit the recorded moves in the
given order, freeing one register per move. -/
def apply_moves (moves : List (Nat × Nat)) (c : ProtoContext) :
    Option ProtoContext :=
  match moves with
  | [] => some c
  | (target, src) :: rest =>
      let (_, p') := c.proto.code_move target src
      match ProtoContext.free_reg { c with proto := p' } 1 with
      | none => none
      | some c1 => apply_moves rest c1

def assign_stat (fuel : Nat) (left : List Assignable) (right : List Expr)
    (c : ProtoContext) : Option ProtoContext :=
  let use_temp_reg := right.length ≠ left.length
  match assign_rhs fuel left right.length use_temp_reg 0 right [] c with
  | none => none
  | some (to_move, c1) =>
    let reg := c1.get_reg_top
    match adjust_assign left.length right c1 with
    | none => none
    | some (extra, c2) =>
      let moves : Option (List (Nat × Nat)) :=
        if extra > 0 then
          nil_moves left (left.length - extra.toNat) reg 0 extra.toNat to_move c2
        else some to_move
      match moves with
      | none => none
      | some to_move' =>
        match apply_moves to_move'.reverse c2 with
        | none => none
        | some c3 =>
            if extra < 0 then c3.free_reg (-extra).toNat
            else some c3

/-- `ast_walker::walk_block`, modelled from the spec: visit each
statement in order. -/
def walk_block (fuel : Nat) (stats : List Stat) (c : ProtoContext) :
    Option ProtoContext :=
  match stats with
  | [] => some c
  | .LocalStat names exprs :: rest =>
      (match local_stat fuel names exprs c with
      | none => none
      | some c1 => walk_block fuel rest c1)
  | .AssignStat l r :: rest =>
      (match assign_stat fuel l r c with
      | none => none
      | some c1 => walk_block fuel rest c1)

/-- `main_func` on the single proto context: `open` is a no-op, `close`
emits the final `Return`. -/
def main_func (fuel : Nat) (block : List Stat) (c : ProtoContext) :
    Option ProtoContext :=
  match walk_block fuel block c with
  | none => none
  | some c1 => some { c1 with proto := (c1.proto.code_return 0 0).2 }

/-- Structural size of an expression, used only to pick a generous fuel. -/
def expr_fuel_size : Expr → Nat
  | .BinExpr _ l r => expr_fuel_size l + expr_fuel_size r + 1
  | .UnExpr _ e => expr_fuel_size e + 1
  | .ParenExpr e => expr_fuel_size e + 1
  | _ => 1

def stat_fuel_size : Stat → Nat
  | .LocalStat _ exprs => (exprs.map expr_fuel_size).sum + 1
  | .AssignStat _ right => (right.map expr_fuel_size).sum + 1

/-- Fuel that is always sufficient for a block: the expression-lowering
call graph descends at least one structural level every five calls. -/
def block_fuel (block : List Stat) : Nat :=
  8 * (block.map stat_fuel_size).sum + 8

/-- `Compiler::run`: compile a block from the fresh context, returning
the finished `Proto`. -/
def run (block : List Stat) : Option Proto :=
  (main_func (block_fuel block) block ProtoContext.new).map ProtoContext.proto

end Compiler

/-! ### Lexer numeric conversion (`src/lexer.rs`)

Byte buffers are modelled as `List Nat` of byte values.  The index-based
`while` loops of the source take an explicit fuel; since every iteration
advances the index by at least one and stops at the buffer length,
`bytes.length` iterations always suffice and the wrappers pass exactly
that. -/

namespace Lexer

def is_digit (c : Nat) : Bool := 48 ≤ c && c ≤ 57

def is_hex_digit (c : Nat) : Bool :=
  (97 ≤ c && c ≤ 102) || (65 ≤ c && c ≤ 70) || is_digit c

def to_digit (c : Nat) : Nat := c - 48

def to_ascii_lowercase (c : Nat) : Nat :=
  if 65 ≤ c && c ≤ 90 then c + 32 else c

def to_hex_digit (c : Nat) : Nat :=
  if is_digit c then c - 48 else to_ascii_lowercase c - 97 + 10

def skip_spaces_loop (fuel : Nat) (bytes : List Nat) (i : Nat) : Nat :=
  match fuel with
  | 0 => i
  | fuel + 1 =>
      if i < bytes.length ∧ bytes.getD i 0 = 32 then
        skip_spaces_loop fuel bytes (i + 1)
      else i

def skip_spaces (bytes : List Nat) (i : Nat) : Nat :=
  skip_spaces_loop bytes.length bytes i

def starts_with_0x (bytes : List Nat) (i : Nat) : Bool :=
  decide (bytes.length > i + 2) && (bytes.getD i 0 == 48) &&
    ((bytes.getD (i + 1) 0 == 120) || (bytes.getD (i + 1) 0 == 88))

def get_sign (bytes : List Nat) (i : Nat) : Int × Nat :=
  if i < bytes.length then
    if bytes.getD i 0 = 45 then (-1, i + 1)
    else if bytes.getD i 0 = 43 then (1, i + 1)
    else (1, i)
  else (1, i)

/-- The hex-digit accumulation loop of `str_to_int`: `(r << 4) + digit`
on `i64` wraps the shifted-out bits, i.e. reduces modulo `2^64`. -/
def hex_digits_loop (fuel : Nat) (bytes : List Nat) (i : Nat) (r : Int)
    (empty : Bool) : Int × Nat × Bool :=
  match fuel with
  | 0 => (r, i, empty)
  | fuel + 1 =>
      if i < bytes.length ∧ is_hex_digit (bytes.getD i 0) then
        hex_digits_loop fuel bytes (i + 1)
          (wrap64 (r * 16 + (to_hex_digit (bytes.getD i 0) : Int))) false
      else (r, i, empty)

/-- The decimal accumulation loop of `str_to_int`; `r * 10 + digit`
wraps modulo `2^64` (release-mode `i64` semantics). -/
def dec_digits_loop (fuel : Nat) (bytes : List Nat) (i : Nat) (r : Int)
    (empty : Bool) : Int × Nat × Bool :=
  match fuel with
  | 0 => (r, i, empty)
  | fuel + 1 =>
      if i < bytes.length ∧ is_digit (bytes.getD i 0) then
        dec_digits_loop fuel bytes (i + 1)
          (wrap64 (r * 10 + (to_digit (bytes.getD i 0) : Int))) false
      else (r, i, empty)

/-- `Lexer::str_to_int` on the byte view of the input string.  The final
`r * sign` is `i64` multiplication and wraps. -/
def str_to_int (bytes : List Nat) : Option Int :=
  let len := bytes.length
  let i0 := skip_spaces bytes 0
  let (sign, i1) := get_sign bytes i0
  let (r, i2, empty) :=
    if starts_with_0x bytes i1 then
      hex_digits_loop len bytes (i1 + 2) 0 true
    else
      dec_digits_loop len bytes i1 0 true
  let i3 := skip_spaces bytes i2
  if empty ∨ i3 ≠ len then none else some (wrap64 (r * sign))

/-- Modelled from the spec: `FloatType` (`types.rs`, which is not among
the sources) is `f64`.  A float is carried as the exact rational value
that the source's floating-point arithmetic approximates, or one of the
non-finite shapes; rounding to 53-bit IEEE-754 significands (and the
platform-dependent `libm` behind `powf`) is abstracted to exact
arithmetic on those rationals. -/
inductive FloatType where
  | Finite (q : ℚ)
  | Inf
  | NegInf
  | NaN
  deriving DecidableEq

/-- The mantissa loop of `str_to_hex_float`: a dot is remembered (a
second dot aborts the parse), a hex digit accumulates `r * 16 + d` and,
after the dot, decrements the fractional-digit counter `e` (an `i64`),
and any other byte breaks out of the loop. -/
def hex_float_loop (fuel : Nat) (bytes : List Nat) (i : Nat)
    (has_dot : Bool) (e : Int) (r : ℚ) (empty : Bool) :
    Option (ℚ × Int × Nat × Bool) :=
  match fuel with
  | 0 => some (r, e, i, empty)
  | fuel + 1 =>
      if i < bytes.length then
        if bytes.getD i 0 = 46 then
          if has_dot then none
          else hex_float_loop fuel bytes (i + 1) true e r empty
        else if is_hex_digit (bytes.getD i 0) then
          hex_float_loop fuel bytes (i + 1) has_dot
            (if has_dot then wrap64 (e - 1) else e)
            (r * 16 + (to_hex_digit (bytes.getD i 0) : ℚ)) false
        else some (r, e, i, empty)
      else some (r, e, i, empty)

/-- The binary-exponent digit loop of `str_to_hex_float`:
`exp_value * 10 + d` on `i64` wraps modulo `2^64`; a non-digit breaks
without advancing. -/
def hex_exp_loop (fuel : Nat) (bytes : List Nat) (index : Nat)
    (exp_value : Int) (exp_empty : Bool) : Int × Nat × Bool :=
  match fuel with
  | 0 => (exp_value, index, exp_empty)
  | fuel + 1 =>
      if index < bytes.length ∧ is_digit (bytes.getD index 0) then
        hex_exp_loop fuel bytes (index + 1)
          (wrap64 (exp_value * 10 + (to_digit (bytes.getD index 0) : Int)))
          false
      else (exp_value, index, exp_empty)

/-- `Lexer::str_to_hex_float`: sign, mantissa with at most one dot,
`e *= 4`, optional `p`/`P` binary exponent with its own sign, then
`r * 2^e`.  The source calls `skip_spaces` after the exponent but
discards its result, so trailing spaces are *not* tolerated here; the
`empty || i != len` rejection is as in the source. -/
def str_to_hex_float (bytes : List Nat) : Option FloatType :=
  let (sign, i0) := get_sign bytes 0
  match hex_float_loop bytes.length bytes i0 false 0 0 true with
  | none => none
  | some (r, e, i1, empty) =>
      let e1 := wrap64 (e * 4)
      let step : Option (Int × Nat) :=
        if i1 < bytes.length ∧ (bytes.getD i1 0 = 112 ∨ bytes.getD i1 0 = 80) then
          let (esign, index0) := get_sign bytes (i1 + 1)
          let (exp_value, index1, exp_empty) :=
            hex_exp_loop bytes.length bytes index0 0 true
          if exp_empty then none
          else some (wrap64 (e1 + wrap64 (exp_value * esign)), index1)
        else some (e1, i1)
      match step with
      | none => none
      | some (e2, i2) =>
          let r2 := r * (2 : ℚ) ^ e2
          if empty ∨ i2 ≠ bytes.length then none
          else some (.Finite (r2 * (sign : ℚ)))

/-- Decimal value of a digit string (no wrapping: this models the
standard library, not the `i64` loops of the lexer). -/
def dec_digits_val (l : List Nat) : Nat :=
  l.foldl (fun acc c => acc * 10 + to_digit c) 0

/-- Modelled from the spec: the decimal path of `str_to_float` "uses the
platform's IEEE-754 parse" — Rust's standard-library `f64` `FromStr`,
which is not part of this repository.  Its documented grammar: an
optional sign, then case-insensitive `inf`/`infinity`/`nan` or digits
with an optional fraction and an optional decimal exponent, the whole
input consumed; the value is the exact decimal reading. -/
def rust_parse_float (bytes : List Nat) : Option FloatType :=
  let (neg, rest) :=
    match bytes with
    | 45 :: r => (true, r)
    | 43 :: r => (false, r)
    | r => (false, r)
  let lower := rest.map to_ascii_lowercase
  if lower = [105, 110, 102] ∨ lower = [105, 110, 102, 105, 110, 105, 116, 121] then
    some (if neg then FloatType.NegInf else FloatType.Inf)
  else if lower = [110, 97, 110] then some FloatType.NaN
  else
    let ip := rest.takeWhile is_digit
    let rest1 := rest.dropWhile is_digit
    let (fp, rest2) :=
      match rest1 with
      | 46 :: r2 => (r2.takeWhile is_digit, r2.dropWhile is_digit)
      | _ => ([], rest1)
    if ip = [] ∧ fp = [] then none
    else
      let expPart : Option Int :=
        match rest2 with
        | [] => some 0
        | c :: r3 =>
            if c = 101 ∨ c = 69 then
              let (eneg, r4) :=
                match r3 with
                | 45 :: r5 => (true, r5)
                | 43 :: r5 => (false, r5)
                | r5 => (false, r5)
              let ed := r4.takeWhile is_digit
              if ed = [] ∨ r4.dropWhile is_digit ≠ [] then none
              else some (if eneg then -(dec_digits_val ed : Int)
                else (dec_digits_val ed : Int))
            else none
      match expPart with
      | none => none
      | some ex =>
          let q : ℚ := (dec_digits_val (ip ++ fp) : ℚ) *
            (10 : ℚ) ^ (ex - (fp.length : Int))
          some (.Finite (if neg then -q else q))

/-- `Lexer::str_to_float`: skip spaces, and an input with the `0x`
prefix at the first non-space goes to `str_to_hex_float` on
`bytes[2..]` (the slice from index 2 of the *original* buffer, exactly
as in the source); anything else goes to the standard-library parse of
the whole string. -/
def str_to_float (bytes : List Nat) : Option FloatType :=
  let i := skip_spaces bytes 0
  if starts_with_0x bytes i then str_to_hex_float (bytes.drop 2)
  else rust_parse_float bytes

/-- The `Number` enum of `types.rs`, modelled from the spec: an integer,
a float, or no number. -/
inductive Number where
  | Int (v : Int)
  | Float (f : FloatType)
  | None
  deriving DecidableEq

def str_to_num (bytes : List Nat) : Number :=
  match str_to_int bytes with
  | some i => .Int i
  | none =>
      match str_to_float bytes with
      | some f => .Float f
      | none => .None

/-! The slice of the lexer `Context` that `read_number` uses: the byte
buffer and the current position (line/column bookkeeping is dropped). -/

structure LexCtx where
  buffer : List Nat
  current : Nat
  deriving DecidableEq

namespace LexCtx

def get_ahead (ctx : LexCtx) (index : Nat) : Option Nat :=
  ctx.buffer.get? (ctx.current + index)

def get (ctx : LexCtx) : Option Nat := ctx.get_ahead 0

def get_next (ctx : LexCtx) : Option Nat := ctx.get_ahead 1

def skip (ctx : LexCtx) (n : Nat) : LexCtx :=
  { ctx with current := ctx.current + n }

/-- `write_into` appends the next `n` bytes to the output and advances,
or silently does nothing when fewer than `n` bytes remain. -/
def write_into (ctx : LexCtx) (n : Nat) (output : List Nat) :
    LexCtx × List Nat :=
  if ctx.current + n ≤ ctx.buffer.length then
    (ctx.skip n, output ++ (ctx.buffer.drop ctx.current).take n)
  else (ctx, output)

end LexCtx

def check (src : Option Nat) (target : Nat) : Bool :=
  match src with
  | some c => c == target
  | none => false

def check_current (ctx : LexCtx) (c : Nat) : Bool := check ctx.get c

def check_current2 (ctx : LexCtx) (c1 c2 : Nat) : Bool :=
  check ctx.get c1 || check ctx.get c2

def check_next2 (ctx : LexCtx) (c1 c2 : Nat) : Bool :=
  check ctx.get_next c1 || check ctx.get_next c2

/-- The digit-collecting loop of `read_number`. -/
def read_number_loop (fuel : Nat) (hex : Bool) (expo1 expo2 : Nat)
    (ctx : LexCtx) (num_str : List Nat) : LexCtx × List Nat :=
  match fuel with
  | 0 => (ctx, num_str)
  | fuel + 1 =>
      let digit_ok := fun c =>
        (hex && is_hex_digit c) || (!hex && is_digit c) || (c == 46)
      if (match ctx.get with | some c => digit_ok c | none => false) then
        let (ctx1, out1) := ctx.write_into 1 num_str
        read_number_loop fuel hex expo1 expo2 ctx1 out1
      else if check_current2 ctx expo1 expo2 then
        let (ctx1, out1) := ctx.write_into 1 num_str
        if check_current2 ctx1 45 43 then
          let (ctx2, out2) := ctx1.write_into 1 out1
          read_number_loop fuel hex expo1 expo2 ctx2 out2
        else read_number_loop fuel hex expo1 expo2 ctx1 out1
      else (ctx, num_str)

/-- `Lexer::read_number`: collect the literal, then convert via
`str_to_num`; `Number.None` is the "malformed number" lex error. -/
def read_number (ctx : LexCtx) : Option (Number × LexCtx) :=
  let (expo1, expo2, num_str, ctx1, hex) :=
    if check_current ctx 48 && check_next2 ctx 120 88 then
      let (c, out) := ctx.write_into 2 []
      (80, 112, out, c, true)
    else (69, 101, [], ctx, false)
  let (ctx2, num_str2) :=
    read_number_loop (ctx.buffer.length + 1) hex expo1 expo2 ctx1 num_str
  match str_to_num num_str2 with
  | .Int n => some (.Int n, ctx2)
  | .Float n => some (.Float n, ctx2)
  | .None => none

/-- ASCII view of a string as its byte list. -/
def asciiBytes (s : String) : List Nat := s.data.map Char.toNat

/-! Specification-side rendering of the `str_to_int` contract.  The
digit-accumulation folds mirror the loop bodies; the two parsers below
transcribe the claimed acceptance condition, once exactly as claimed and
once amended with the space handling the code actually performs. -/

def dec_accum (r : Int) : List Nat → Int
  | [] => r
  | c :: rest => dec_accum (wrap64 (r * 10 + (to_digit c : Int))) rest

def hex_accum (r : Int) : List Nat → Int
  | [] => r
  | c :: rest => hex_accum (wrap64 (r * 16 + (to_hex_digit c : Int))) rest

/-- Optional sign, as claimed. -/
def drop_sign (l : List Nat) : Int × List Nat :=
  match l with
  | c :: rest =>
      if c = 45 then (-1, rest) else if c = 43 then (1, rest) else (1, l)
  | [] => (1, l)

/-- Optional `0x`/`0X` prefix, as claimed. -/
def drop_0x (l : List Nat) : Bool × List Nat :=
  match l with
  | c1 :: c2 :: rest =>
      if c1 = 48 ∧ (c2 = 120 ∨ c2 = 88) then (true, rest) else (false, l)
  | _ => (false, l)

def digit_pred (hex : Bool) : Nat → Bool :=
  fun c => if hex then is_hex_digit c else is_digit c

/-- The original claim as a parser: optional sign, optional prefix,
digits; `none` exactly when the digit sequence is empty or any non-digit
character trails the digits. -/
def str_to_int_claim (bytes : List Nat) : Option Int :=
  let (sign, b2) := drop_sign bytes
  let (hex, b3) := drop_0x b2
  let digits := b3.takeWhile (digit_pred hex)
  let rest := b3.dropWhile (digit_pred hex)
  if digits = [] ∨ rest ≠ [] then none
  else some (wrap64 ((if hex then hex_accum 0 digits else dec_accum 0 digits) * sign))

/-- The amended claim as a parser: additionally, spaces before the sign
are skipped and spaces after the digits are tolerated. -/
def str_to_int_spec (bytes : List Nat) : Option Int :=
  let b1 := bytes.dropWhile (fun c => c == 32)
  let (sign, b2) := drop_sign b1
  let (hex, b3) := drop_0x b2
  let digits := b3.takeWhile (digit_pred hex)
  let rest := b3.dropWhile (digit_pred hex)
  if digits = [] ∨ ¬ rest.all (fun c => c == 32) then none
  else some (wrap64 ((if hex then hex_accum 0 digits else dec_accum 0 digits) * sign))

end Lexer

/-! ### Specification-side predicates for the compiler invariants -/

/-- The opcodes whose B/C operands this compiler fills from `get_rk`,
i.e. the instructions that carry RK operands. -/
def isRKOp : OpCode → Bool
  | .Add | .Sub | .Mul | .Mod | .Pow | .Div | .IDiv
  | .BAdd | .BOr | .BXor | .Shl | .Shr | .Concat
  | .Eq | .Lt | .Le
  | .Unm | .BNot | .Not | .Len => true
  | _ => false

/-- Upper bound on every register index the compiler can mention: the
ghost register high-water mark or a declared-local index. -/
def regBound (c : ProtoContext) : Nat :=
  max c.max_top c.proto.local_vars.length

/-- An RK field value is well-formed relative to a constant count and a
register bound: as long as registers stay below 256, a field with the
`MASK_K` bit set decodes to a valid constant index. -/
def field_rk_ok (v len rb : Nat) : Prop :=
  rb ≤ 256 → 256 ≤ v → v - 256 < len

def InstrOK (ins : Instruction) (len rb : Nat) : Prop :=
  isRKOp ins.op = true →
    field_rk_ok ins.get_arg_B len rb ∧ field_rk_ok ins.get_arg_C len rb

/-- Field values stay inside their bit widths. -/
def instr_bits_ok (ins : Instruction) : Prop :=
  ins.a < 256 ∧ ins.bx < 262144

def codeOK (c : ProtoContext) : Prop :=
  ∀ ins ∈ c.proto.code,
    instr_bits_ok ins ∧ InstrOK ins c.proto.consts.length (regBound c)

/-- Every constant-map entry points at the matching slot of `consts`. -/
def Proto.const_map_wf (p : Proto) : Prop :=
  ∀ k i, Proto.map_get p.const_map k = some i → p.consts.get? i = some k

/-- The compile-time invariant: registers below the high-water mark, the
high-water mark below the stack size, a well-formed constant map, and
well-formed emitted code. -/
def Inv (c : ProtoContext) : Prop :=
  c.reg_top ≤ c.max_top ∧ c.max_top ≤ c.proto.stack_size ∧
    Proto.const_map_wf c.proto ∧ codeOK c

/-- What any compile step may do to the state: the high-water mark,
stack size, constant count and local count only grow, and the opcode of
every already-emitted instruction is preserved. -/
def StepOK (c c' : ProtoContext) : Prop :=
  c.max_top ≤ c'.max_top ∧
  c.proto.stack_size ≤ c'.proto.stack_size ∧
  c.proto.consts.length ≤ c'.proto.consts.length ∧
  c.proto.local_vars.length ≤ c'.proto.local_vars.length ∧
  c.proto.code.length ≤ c'.proto.code.length ∧
  (∀ i ins, c.proto.code.get? i = some ins →
    ∃ ins', c'.proto.code.get? i = some ins' ∧ ins'.op = ins.op)

/-- Result registers stay below the register bound, and a `Jump` result
points at an emitted `Jmp` instruction. -/
def ResOK (r : ExprResult) (c : ProtoContext) : Prop :=
  match r with
  | .Reg rg => rg.reg < regBound c
  | .Jump j => j.reg.reg < regBound c ∧
      ∃ ins, c.proto.code.get? j.pc = some ins ∧ ins.op = OpCode.Jmp
  | _ => True

/-- A suggested input register is below the register bound. -/
def InOK (input : Option Nat) (c : ProtoContext) : Prop :=
  ∀ r, input = some r → r < regBound c

/-- The two shapes `get_rk` can produce: a tagged valid constant index or
a bounded register. -/
def rk_ok (v : Nat) (c : ProtoContext) : Prop :=
  (∃ idx, idx < c.proto.consts.length ∧ v = 256 ||| idx) ∨ v < regBound c

/-! Specification-side rendering of the claimed comparison lowering:
`Gt`/`Ge` swap to `Lt`/`Le`, `Ne` uses `Eq`, and the A flag is 0 exactly
for `Ne`. -/

def comp_claim_opcode : BinOp → OpCode
  | .Eq | .Ne => .Eq
  | .Lt | .Gt => .Lt
  | _ => .Le

def comp_claim_swaps : BinOp → Bool
  | .Gt | .Ge => true
  | _ => false

/-! ## Theorems -/

/-! ### Local-variable lookup (claim C10) -/

theorem position_spec (name : String) (l : List LocalVal) (i : Nat) :
    Proto.position name l = some i ↔
      ((∃ v, l.get? i = some v ∧ v.name = name) ∧
       ∀ j v, j < i → l.get? j = some v → v.name ≠ name) := by
  induction l generalizing i with
  | nil => simp [Proto.position]
  | cons hd tl ih =>
      by_cases hh : hd.name = name
      · simp only [Proto.position, if_pos hh]
        constructor
        · rintro h
          injection h with h
          subst h
          exact ⟨⟨hd, rfl, hh⟩, by intro j v hj _ _; omega⟩
        · rintro ⟨⟨v, hv, hvn⟩, hmin⟩
          cases i with
          | zero => rfl
          | succ n =>
              exact absurd hh (hmin 0 hd (Nat.succ_pos n) rfl)
      · simp only [Proto.position, if_neg hh]
        constructor
        · intro h
          rcases Option.map_eq_some'.mp h with ⟨m, hm, hmi⟩
          subst hmi
          rcases (ih m).mp hm with ⟨⟨v, hv, hvn⟩, hmin⟩
          refine ⟨⟨v, by simpa using hv, hvn⟩, ?_⟩
          intro j v' hj hjv
          cases j with
          | zero =>
              intro hc
              exact hh (by injection hjv with h; rw [← h] at hc; exact hc)
          | succ j' =>
              exact hmin j' v' (by omega) (by simpa using hjv)
        · rintro ⟨⟨v, hv, hvn⟩, hmin⟩
          cases i with
          | zero =>
              exact absurd (by injection hv with h; rw [← h] at hvn; exact hvn) hh
          | succ n =>
              have : Proto.position name tl = some n := by
                refine (ih n).mpr ⟨⟨v, by simpa using hv, hvn⟩, ?_⟩
                intro j v' hj hjv
                exact hmin (j + 1) v' (by omega) (by simpa using hjv)
              simp [this]

/-- Claim C10: `get_local_var` returns the index of the earliest entry of
`local_vars` whose name matches (and `none` when no entry matches), so a
`Name` expression always resolves to the register of the first
declaration of that name, not the most recent one. -/
theorem C10_get_local_var_first :
    (∀ (p : Proto) (name : String) (i : Nat),
        p.get_local_var name = some i ↔
          ((∃ v, p.local_vars.get? i = some v ∧ v.name = name) ∧
           ∀ j v, j < i → p.local_vars.get? j = some v → v.name ≠ name)) ∧
    (∀ (fuel : Nat) (reg : Option Nat) (c : ProtoContext) (name : String) (i : Nat),
        c.proto.get_local_var name = some i →
        Compiler.expr (fuel + 1) (.Name name) reg c =
          some (ExprResult.new_const_reg i, c)) := by
  constructor
  · intro p name i
    exact position_spec name p.local_vars i
  · intro fuel reg c name i h
    simp [Compiler.expr, h]

/-- Witness for C10: with locals `a, b, a`, reading `a` resolves to
register 0, the first declaration. -/
theorem C10_witness :
    (Proto.mk 2 0 [] [] [] [⟨"a"⟩, ⟨"b"⟩, ⟨"a"⟩]).get_local_var "a" = some 0 ∧
    Compiler.expr 1 (.Name "a") none ⟨0, 0, Proto.mk 2 0 [] [] [] [⟨"a"⟩, ⟨"b"⟩, ⟨"a"⟩]⟩ =
      some (ExprResult.new_const_reg 0,
        ⟨0, 0, Proto.mk 2 0 [] [] [] [⟨"a"⟩, ⟨"b"⟩, ⟨"a"⟩]⟩) :=
  ⟨by decide,
   C10_get_local_var_first.2 0 none ⟨0, 0, Proto.mk 2 0 [] [] [] [⟨"a"⟩, ⟨"b"⟩, ⟨"a"⟩]⟩
     "a" 0 (by decide)⟩

/-! ### Constant interning (claim C3) -/

theorem get?_append_left {α : Type} {l₁ : List α} (l₂ : List α) {i : Nat}
    (h : i < l₁.length) : (l₁ ++ l₂).get? i = l₁.get? i := by
  simp only [List.get?_eq_getElem?]
  exact List.getElem?_append_left h

theorem get?_concat_self {α : Type} (l : List α) (a : α) :
    (l ++ [a]).get? l.length = some a := by
  simp only [List.get?_eq_getElem?]
  simp

theorem get?_some_lt {α : Type} {l : List α} {i : Nat} {v : α}
    (h : l.get? i = some v) : i < l.length := by
  by_contra hge
  rw [List.get?_eq_none.mpr (by omega)] at h
  exact Option.noConfusion h

theorem map_get_append_self (m : List (Const × Nat)) (k : Const) (i : Nat)
    (h : Proto.map_get m k = none) :
    Proto.map_get (m ++ [(k, i)]) k = some i := by
  unfold Proto.map_get at *
  rw [List.find?_append]
  rcases hf : m.find? (fun e => e.1 = k) with _ | e
  · rw [hf]
    simp [List.find?]
  · rw [hf] at h
    simp at h

theorem map_get_append_other (m : List (Const × Nat)) (k k' : Const) (i : Nat)
    (h : k' ≠ k) :
    Proto.map_get (m ++ [(k, i)]) k' = Proto.map_get m k' := by
  unfold Proto.map_get
  rw [List.find?_append]
  have hdk : (decide (k = k')) = false := decide_eq_false (Ne.symm h)
  have hone : List.find? (fun e => e.1 = k') [(k, i)] = none := by
    simp [List.find?, hdk]
  rw [hone]
  simp

theorem add_const_found (p : Proto) (k : Const) (i : Nat)
    (h : Proto.map_get p.const_map k = some i) : p.add_const k = (i, p) := by
  simp [Proto.add_const, h]

theorem add_const_new (p : Proto) (k : Const)
    (h : Proto.map_get p.const_map k = none) :
    p.add_const k = (p.consts.length,
      { p with consts := p.consts ++ [k],
               const_map := p.const_map ++ [(k, p.consts.length)] }) := by
  simp [Proto.add_const, h]

theorem add_const_wf (p : Proto) (k : Const) (h : p.const_map_wf) :
    (p.add_const k).2.const_map_wf := by
  rcases hm : Proto.map_get p.const_map k with _ | i
  · rw [add_const_new p k hm]
    intro k' i' h'
    by_cases hk : k' = k
    · subst hk
      rw [map_get_append_self _ _ _ hm] at h'
      injection h' with h'
      subst h'
      exact get?_concat_self p.consts k'
    · rw [map_get_append_other _ _ _ _ hk] at h'
      have hv := h k' i' h'
      show (p.consts ++ [k]).get? i' = some k'
      rw [get?_append_left [k] (get?_some_lt hv)]
      exact hv
  · rw [add_const_found p k i hm]
    exact h

theorem add_const_get (p : Proto) (k : Const) (h : p.const_map_wf) :
    (p.add_const k).2.consts.get? (p.add_const k).1 = some k := by
  rcases hm : Proto.map_get p.const_map k with _ | i
  · rw [add_const_new p k hm]
    exact get?_concat_self p.consts k
  · rw [add_const_found p k i hm]
    exact h k i hm

theorem add_const_consts_mono (p : Proto) (k : Const) (i : Nat) (v : Const)
    (h : p.consts.get? i = some v) :
    (p.add_const k).2.consts.get? i = some v := by
  rcases hm : Proto.map_get p.const_map k with _ | j
  · rw [add_const_new p k hm]
    show (p.consts ++ [k]).get? i = some v
    rw [get?_append_left [k] (get?_some_lt h)]
    exact h
  · rw [add_const_found p k j hm]
    exact h

/-- Claim C3: `add_const` returns the existing index when the constant is
already interned and otherwise appends it, inserts the map entry and
returns the new index; on any constant-map-consistent `Proto` (as every
reachable `Proto` is), structurally equal literals get the same index and
distinct literals get distinct indices. -/
theorem C3_add_const :
    Proto.default.const_map_wf ∧
    (∀ (p : Proto) (k : Const), p.const_map_wf → (p.add_const k).2.const_map_wf) ∧
    (∀ (p : Proto) (k : Const) (i : Nat),
        Proto.map_get p.const_map k = some i → p.add_const k = (i, p)) ∧
    (∀ (p : Proto) (k : Const),
        Proto.map_get p.const_map k = none →
        p.add_const k = (p.consts.length,
          { p with consts := p.consts ++ [k],
                   const_map := p.const_map ++ [(k, p.consts.length)] })) ∧
    (∀ (p : Proto) (k : Const) (i₁ : Nat) (p₁ : Proto),
        p.add_const k = (i₁, p₁) → p₁.add_const k = (i₁, p₁)) ∧
    (∀ (p : Proto) (k₁ k₂ : Const) (i₁ i₂ : Nat) (p₁ p₂ : Proto),
        p.const_map_wf → k₁ ≠ k₂ →
        p.add_const k₁ = (i₁, p₁) → p₁.add_const k₂ = (i₂, p₂) → i₁ ≠ i₂) := by
  refine ⟨?_, add_const_wf, add_const_found, add_const_new, ?_, ?_⟩
  · intro k i h
    simp [Proto.map_get, Proto.default, List.find?] at h
  · intro p k i₁ p₁ h
    rcases hm : Proto.map_get p.const_map k with _ | i
    · rw [add_const_new p k hm] at h
      injection h with h1 h2
      subst h2
      subst h1
      exact add_const_found _ k _ (map_get_append_self _ _ _ hm)
    · rw [add_const_found p k i hm] at h
      injection h with h1 h2
      subst h2
      subst h1
      exact add_const_found p k _ hm
  · intro p k₁ k₂ i₁ i₂ p₁ p₂ hwf hne h1 h2 heq
    subst heq
    have hget1 : p₁.consts.get? i₁ = some k₁ := by
      have hg := add_const_get p k₁ hwf
      rw [h1] at hg
      exact hg
    have hwf1 : p₁.const_map_wf := by
      have hw := add_const_wf p k₁ hwf
      rw [h1] at hw
      exact hw
    have hget2 : p₂.consts.get? i₁ = some k₂ := by
      have hg := add_const_get p₁ k₂ hwf1
      rw [h2] at hg
      exact hg
    have hget1' : p₂.consts.get? i₁ = some k₁ := by
      have hg := add_const_consts_mono p₁ k₂ i₁ k₁ hget1
      rw [h2] at hg
      exact hg
    rw [hget1'] at hget2
    injection hget2 with hc
    exact hne hc

/-- Witness for C3: interning `Int 7`, then `Str "x"`, then `Int 7` again
on the fresh proto yields indices 0, 1, 0. -/
theorem C3_witness :
    Proto.default.const_map_wf ∧
    (Proto.default.add_const (.Int 7)).1 = 0 ∧
    ((Proto.default.add_const (.Int 7)).2.add_const (.Str "x")).1 = 1 ∧
    (((Proto.default.add_const (.Int 7)).2.add_const (.Str "x")).2.add_const (.Int 7)).1 = 0 ∧
    (0 : Nat) ≠ 1 :=
  ⟨C3_add_const.1, by decide, by decide, by decide,
   C3_add_const.2.2.2.2.2 Proto.default (.Int 7) (.Str "x") 0 1
    (Proto.default.add_const (.Int 7)).2
    ((Proto.default.add_const (.Int 7)).2.add_const (.Str "x")).2
    C3_add_const.1 (by decide) (by decide) (by decide)⟩

/-! ### Comparison lowering (claim C4) -/

/-- Claim C4: lowering a comparison that reaches code generation emits
exactly two instructions — the comparison (with `Gt`/`Ge` swapped to
`Lt`/`Le` and `Ne` emitted as `Eq` with A = 0 instead of 1) followed by
an unconditional `Jmp` whose sBx is `NO_JUMP` — and returns a `Jump`
result carrying the pc of that `Jmp`. -/
theorem C4_code_comp (op : BinOp) (rg : Reg) (lrk rrk : Nat)
    (c : ProtoContext) (res : ExprResult) (c' : ProtoContext)
    (hcomp : op.is_comp = true)
    (h : Compiler.code_comp op (.Reg rg) lrk rrk c = some (res, c')) :
    c'.proto.code = c.proto.code ++
        [Instruction.create_ABC (comp_claim_opcode op)
           (if op = .Ne then 0 else 1)
           (if comp_claim_swaps op then rrk else lrk)
           (if comp_claim_swaps op then lrk else rrk),
         Instruction.create_AsBx .Jmp 0 NO_JUMP] ∧
    res = ExprResult.Jump ⟨rg, c.proto.code.length + 1, [], []⟩ ∧
    (Instruction.create_AsBx .Jmp 0 NO_JUMP).get_arg_sBx = NO_JUMP ∧
    c'.reg_top = c.reg_top := by
  cases op <;> try (exact absurd hcomp (by decide))
  all_goals
    simp only [Compiler.code_comp, Proto.code_comp, Proto.comp_opcode,
      Proto.code_jmp, ExprResult.new_jump, Jump.new] at h
  all_goals
    injection h with h
  all_goals
    injection h with h1 h2
  all_goals
    subst h1
  all_goals
    subst h2
  all_goals
    refine ⟨?_, ?_, by decide, rfl⟩
  all_goals
    simp [comp_claim_opcode, comp_claim_swaps, List.append_assoc,
      List.length_append]

/-- Witness for C4: `Gt` at registers 3 and 4 emits `Lt` with swapped
operands followed by the sentinel jump. -/
theorem C4_witness :
    BinOp.is_comp .Gt = true ∧
    ((⟨0, 0, { Proto.default with
        code := [Instruction.create_ABC .Lt 1 4 3,
                 Instruction.create_AsBx .Jmp 0 NO_JUMP] }⟩ : ProtoContext).proto.code =
      (⟨0, 0, Proto.default⟩ : ProtoContext).proto.code ++
        [Instruction.create_ABC (comp_claim_opcode .Gt)
           (if BinOp.Gt = .Ne then 0 else 1)
           (if comp_claim_swaps .Gt then 4 else 3)
           (if comp_claim_swaps .Gt then 3 else 4),
         Instruction.create_AsBx .Jmp 0 NO_JUMP] ∧
     ExprResult.Jump ⟨⟨5, false, true⟩, 1, [], []⟩ =
       ExprResult.Jump ⟨⟨5, false, true⟩,
         (⟨0, 0, Proto.default⟩ : ProtoContext).proto.code.length + 1, [], []⟩ ∧
     (Instruction.create_AsBx .Jmp 0 NO_JUMP).get_arg_sBx = NO_JUMP ∧
     (⟨0, 0, { Proto.default with
        code := [Instruction.create_ABC .Lt 1 4 3,
                 Instruction.create_AsBx .Jmp 0 NO_JUMP] }⟩ : ProtoContext).reg_top =
       (⟨0, 0, Proto.default⟩ : ProtoContext).reg_top) :=
  ⟨by decide,
   C4_code_comp .Gt ⟨5, false, true⟩ 3 4 ⟨0, 0, Proto.default⟩
     (ExprResult.Jump ⟨⟨5, false, true⟩, 1, [], []⟩)
     ⟨0, 0, { Proto.default with
        code := [Instruction.create_ABC .Lt 1 4 3,
                 Instruction.create_AsBx .Jmp 0 NO_JUMP] }⟩
     (by decide) (by decide)⟩

/-! ### Jump materialisation (claim C5) -/

theorem set_arg_sBx_decode (ins : Instruction) (v : Int)
    (h1 : 0 ≤ v) (h2 : v ≤ 131071) :
    (ins.set_arg_sBx v).get_arg_sBx = v := by
  simp only [Instruction.set_arg_sBx, Instruction.get_arg_sBx]
  omega

theorem get?_set_self {α : Type} (l : List α) (i : Nat) (a : α)
    (h : i < l.length) : (l.set i a).get? i = some a := by
  simp only [List.get?_eq_getElem?]
  exact List.getElem?_set_eq_of_lt a h

theorem fix_spec (j : Jump) (target : Nat) (p : Proto) (ins : Instruction)
    (hins : p.code.get? j.pc = some ins) :
    j.fix target p = some { p with code :=
      (p.code.set j.pc (ins.set_arg_sBx ((target : Int) - (j.pc : Int) - 1))) } := by
  unfold Jump.fix Proto.modifyInstr
  rw [hins]

/-- Claim C5: materialising a `Jump` appends exactly two `LoadBool`
instructions — target/false with skip 1, then target/true with skip 0 —
and patches the pending `Jmp` at the jump pc so that its decoded sBx
is (pc of the true `LoadBool`) − pc − 1, landing on the true `LoadBool`. -/
theorem C5_jump_resolve (j : Jump) (c c' : ProtoContext)
    (hpc : j.pc < c.proto.code.length)
    (hlen : c.proto.code.length ≤ sBxBias)
    (h : j.resolve c = some c') :
    ∃ ins, c.proto.code.get? j.pc = some ins ∧
      c'.proto.code =
        (c.proto.code.set j.pc
          (ins.set_arg_sBx (((c.proto.code.length + 1 : Nat) : Int) - (j.pc : Int) - 1))) ++
        [Instruction.create_ABC .LoadBool j.reg.reg 0 1,
         Instruction.create_ABC .LoadBool j.reg.reg 1 0] ∧
      (∀ ins', c'.proto.code.get? j.pc = some ins' →
        ins'.get_arg_sBx = ((c.proto.code.length + 1 : Nat) : Int) - (j.pc : Int) - 1) := by
  obtain ⟨ins, hins⟩ : ∃ ins, c.proto.code.get? j.pc = some ins := by
    rcases hg : c.proto.code.get? j.pc with _ | i
    · rw [List.get?_eq_none] at hg
      omega
    · exact ⟨i, rfl⟩
  have hBig : (({ c.proto with code :=
      ((c.proto.code ++ [Instruction.create_ABC .LoadBool j.reg.reg 0 1]) ++
      [Instruction.create_ABC .LoadBool j.reg.reg 1 0]) } : Proto)).code.get? j.pc =
      some ins := by
    show ((c.proto.code ++ [Instruction.create_ABC .LoadBool j.reg.reg 0 1]) ++
      [Instruction.create_ABC .LoadBool j.reg.reg 1 0]).get? j.pc = some ins
    rw [get?_append_left _ (by simp; omega), get?_append_left _ hpc]
    exact hins
  have hset : ((c.proto.code ++ [Instruction.create_ABC .LoadBool j.reg.reg 0 1]) ++
      [Instruction.create_ABC .LoadBool j.reg.reg 1 0]).set j.pc
        (ins.set_arg_sBx (((c.proto.code.length + 1 : Nat) : Int) - (j.pc : Int) - 1)) =
      (c.proto.code.set j.pc
          (ins.set_arg_sBx (((c.proto.code.length + 1 : Nat) : Int) - (j.pc : Int) - 1))) ++
        [Instruction.create_ABC .LoadBool j.reg.reg 0 1,
         Instruction.create_ABC .LoadBool j.reg.reg 1 0] := by
    rw [List.set_append_left _ _ (by simp; omega),
        List.set_append_left _ _ hpc, List.append_assoc]
    rfl
  have hval : j.resolve c = j.reg.resolve { c with proto := { c.proto with code :=
      ((c.proto.code.set j.pc
          (ins.set_arg_sBx (((c.proto.code.length + 1 : Nat) : Int) - (j.pc : Int) - 1))) ++
        [Instruction.create_ABC .LoadBool j.reg.reg 0 1,
         Instruction.create_ABC .LoadBool j.reg.reg 1 0]) } } := by
    unfold Jump.resolve
    simp only [Proto.code_bool, Bool.false_eq_true, if_false, if_true,
      List.length_append, List.length_cons, List.length_nil, Nat.add_sub_cancel]
    rw [fix_spec j _ _ ins hBig]
    rw [hset]
  rw [hval] at h
  have hproto : c'.proto.code =
      (c.proto.code.set j.pc
          (ins.set_arg_sBx (((c.proto.code.length + 1 : Nat) : Int) - (j.pc : Int) - 1))) ++
        [Instruction.create_ABC .LoadBool j.reg.reg 0 1,
         Instruction.create_ABC .LoadBool j.reg.reg 1 0] := by
    unfold Reg.resolve at h
    split at h
    · unfold ProtoContext.free_reg at h
      split at h
      · injection h with h
        subst h
        rfl
      · exact Option.noConfusion h
    · injection h with h
      subst h
      rfl
  refine ⟨ins, hins, hproto, ?_⟩
  intro ins' hins'
  rw [hproto] at hins'
  rw [get?_append_left _ (by rw [List.length_set]; exact hpc)] at hins'
  rw [get?_set_self _ _ _ hpc] at hins'
  injection hins' with hins'
  rw [← hins']
  refine set_arg_sBx_decode ins _ (by omega) ?_
  have hl : (c.proto.code.length : Int) ≤ 131071 := by
    have h2 := hlen
    simp only [sBxBias] at h2
    omega
  omega

/-- Witness for C5: resolving a jump whose `Jmp` sits at pc 0 of a
one-instruction proto appends the two `LoadBool`s and patches the jump
to land on the true one. -/
theorem C5_witness :
    (0 : Nat) < 1 ∧ (1 : Nat) ≤ sBxBias ∧
    Jump.resolve ⟨⟨0, false, true⟩, 0, [], []⟩
      ⟨1, 1, { Proto.default with code := [Instruction.create_AsBx .Jmp 0 NO_JUMP] }⟩ =
      some ⟨1, 1, { Proto.default with code :=
        [⟨.Jmp, 0, 131072⟩,
         Instruction.create_ABC .LoadBool 0 0 1,
         Instruction.create_ABC .LoadBool 0 1 0] }⟩ ∧
    (∃ ins, ([Instruction.create_AsBx .Jmp 0 NO_JUMP]).get? 0 = some ins ∧
      (⟨1, 1, { Proto.default with code :=
          [⟨.Jmp, 0, 131072⟩,
           Instruction.create_ABC .LoadBool 0 0 1,
           Instruction.create_ABC .LoadBool 0 1 0] }⟩ : ProtoContext).proto.code =
        (([Instruction.create_AsBx .Jmp 0 NO_JUMP]).set 0
          (ins.set_arg_sBx (((1 + 1 : Nat) : Int) - ((0 : Nat) : Int) - 1))) ++
        [Instruction.create_ABC .LoadBool 0 0 1,
         Instruction.create_ABC .LoadBool 0 1 0] ∧
      (∀ ins', (⟨1, 1, { Proto.default with code :=
          [⟨.Jmp, 0, 131072⟩,
           Instruction.create_ABC .LoadBool 0 0 1,
           Instruction.create_ABC .LoadBool 0 1 0] }⟩ : ProtoContext).proto.code.get? 0 =
            some ins' →
        ins'.get_arg_sBx = ((1 + 1 : Nat) : Int) - ((0 : Nat) : Int) - 1)) :=
  ⟨by decide, by decide, by decide,
   C5_jump_resolve ⟨⟨0, false, true⟩, 0, [], []⟩
     ⟨1, 1, { Proto.default with code := [Instruction.create_AsBx .Jmp 0 NO_JUMP] }⟩
     ⟨1, 1, { Proto.default with code :=
        [⟨.Jmp, 0, 131072⟩,
         Instruction.create_ABC .LoadBool 0 0 1,
         Instruction.create_ABC .LoadBool 0 1 0] }⟩
     (by decide) (by decide) (by decide)⟩

/-! ### Logical not lowering (claim C6) -/

/-- Claim C6: `code_not` returns `False` when the operand const-folds;
otherwise it lowers the operand and, when the result is a `Jump`, flips
the A flag of the instruction at the jump pc − 1 (u32 `1 - A` truncated
to the 8-bit field, which is `1 - A` on the comparison flags 0/1) and
returns the same jump; `Nil`/`False` become `True`; `Const`/`True`
become `False`; and a register operand is lowered through a `Not`
opcode via `code_un_op`. -/
theorem C6_code_not :
    (∀ (fuel : Nat) (input : Option Nat) (e : Expr) (c : ProtoContext) (k : Const),
        Compiler.try_const_folding e = some (some k) →
        Compiler.code_not (fuel + 1) input e c = some (.False, c)) ∧
    (∀ (fuel : Nat) (input : Option Nat) (e : Expr) (c c₁ : ProtoContext)
        (j : Jump) (ins : Instruction),
        Compiler.try_const_folding e = some none →
        Compiler.expr fuel e input c = some (.Jump j, c₁) →
        c₁.proto.code.get? (j.pc - 1) = some ins →
        j.pc ≠ 0 →
        Compiler.code_not (fuel + 1) input e c =
          some (.Jump j, { c₁ with proto := { c₁.proto with code :=
            (c₁.proto.code.set (j.pc - 1)
              (ins.set_arg_A ((257 - ins.get_arg_A) % 256))) } })) ∧
    (∀ (fuel : Nat) (input : Option Nat) (e : Expr) (c c₁ : ProtoContext),
        Compiler.try_const_folding e = some none →
        Compiler.expr fuel e input c = some (.Nil, c₁) →
        Compiler.code_not (fuel + 1) input e c = some (.True, c₁)) ∧
    (∀ (fuel : Nat) (input : Option Nat) (e : Expr) (c c₁ : ProtoContext),
        Compiler.try_const_folding e = some none →
        Compiler.expr fuel e input c = some (.False, c₁) →
        Compiler.code_not (fuel + 1) input e c = some (.True, c₁)) ∧
    (∀ (fuel : Nat) (input : Option Nat) (e : Expr) (c c₁ : ProtoContext) (k : Const),
        Compiler.try_const_folding e = some none →
        Compiler.expr fuel e input c = some (.Const k, c₁) →
        Compiler.code_not (fuel + 1) input e c = some (.False, c₁)) ∧
    (∀ (fuel : Nat) (input : Option Nat) (e : Expr) (c c₁ : ProtoContext),
        Compiler.try_const_folding e = some none →
        Compiler.expr fuel e input c = some (.True, c₁) →
        Compiler.code_not (fuel + 1) input e c = some (.False, c₁)) ∧
    (∀ (fuel : Nat) (input : Option Nat) (e : Expr) (c c₁ : ProtoContext) (r : Reg),
        Compiler.try_const_folding e = some none →
        Compiler.expr fuel e input c = some (.Reg r, c₁) →
        Compiler.code_not (fuel + 1) input e c =
          Compiler.code_un_op .Not input (.Reg r) c₁) ∧
    (∀ a : Nat, a ≤ 1 → (257 - a) % 256 = 1 - a) := by
  refine ⟨?_, ?_, ?_, ?_, ?_, ?_, ?_, ?_⟩
  · intro fuel input e c k hfold
    simp [Compiler.code_not, hfold]
  · intro fuel input e c c₁ j ins hfold hexpr hins hpc
    simp only [Compiler.code_not, hfold, hexpr]
    unfold Jump.inverse
    rw [if_neg hpc]
    unfold Proto.modifyInstr
    rw [hins]
  · intro fuel input e c c₁ hfold hexpr
    simp [Compiler.code_not, hfold, hexpr]
  · intro fuel input e c c₁ hfold hexpr
    simp [Compiler.code_not, hfold, hexpr]
  · intro fuel input e c c₁ k hfold hexpr
    simp [Compiler.code_not, hfold, hexpr]
  · intro fuel input e c c₁ hfold hexpr
    simp [Compiler.code_not, hfold, hexpr]
  · intro fuel input e c c₁ r hfold hexpr
    simp [Compiler.code_not, hfold, hexpr]
  · intro a ha
    interval_cases a <;> rfl

/-- Witness for C6: `not 1` const-folds, so `code_not` yields `False`
without touching the state. -/
theorem C6_witness :
    Compiler.try_const_folding (.Int 1) = some (some (.Int 1)) ∧
    Compiler.code_not 1 none (.Int 1) ⟨0, 0, Proto.default⟩ =
      some (.False, ⟨0, 0, Proto.default⟩) :=
  ⟨by decide,
   C6_code_not.1 0 none (.Int 1) ⟨0, 0, Proto.default⟩ (.Int 1) (by decide)⟩

/-! ### Hex integer literals at the 64-bit boundary (claim C8) -/

/-- Counterexample to claim C8 as stated: lexing the literal one larger
than `0x7fffffffffffffff` produces an `Int` token (the hex accumulation
wraps modulo `2^64`), not a `Flt` token. -/
theorem C8_counterexample :
    (Lexer.read_number ⟨Lexer.asciiBytes "0x8000000000000000", 0⟩).map Prod.fst =
      some (Lexer.Number.Int (-9223372036854775808)) ∧
    ∀ f, (Lexer.read_number ⟨Lexer.asciiBytes "0x8000000000000000", 0⟩).map Prod.fst ≠
      some (Lexer.Number.Float f) := by
  have h1 : (Lexer.read_number ⟨Lexer.asciiBytes "0x8000000000000000", 0⟩).map Prod.fst =
      some (Lexer.Number.Int (-9223372036854775808)) := by decide
  refine ⟨h1, fun f h => ?_⟩
  rw [h1] at h
  simp at h

/-- Claim C8 as amended: `0x7fffffffffffffff` lexes as an `Int` token
holding the maximum 64-bit signed integer, and the literal one larger
wraps modulo `2^64` and lexes as an `Int` token holding `-2^63`. -/
theorem C8_hex_literal_boundary :
    (Lexer.read_number ⟨Lexer.asciiBytes "0x7fffffffffffffff", 0⟩).map Prod.fst =
      some (Lexer.Number.Int 9223372036854775807) ∧
    (Lexer.read_number ⟨Lexer.asciiBytes "0x8000000000000000", 0⟩).map Prod.fst =
      some (Lexer.Number.Int (-9223372036854775808)) ∧
    Lexer.str_to_int (Lexer.asciiBytes "0x8000000000000000") = some (wrap64 (2 ^ 63)) :=
  ⟨by decide, by decide, by decide⟩

/-! ### The str_to_int contract (claim C7): loop characterizations -/

theorem drop_getD_cons {bytes : List Nat} {i : Nat} (h : i < bytes.length) :
    bytes.drop i = bytes.getD i 0 :: bytes.drop (i + 1) := by
  rw [List.getD_eq_getElem bytes 0 h]
  exact List.drop_eq_getElem_cons h

theorem takeWhile_length_le (p : Nat → Bool) (l : List Nat) :
    (l.takeWhile p).length ≤ l.length := by
  induction l with
  | nil => simp
  | cons hd tl ih =>
      cases hp : p hd
      · simp [List.takeWhile_cons, hp]
      · simp only [List.takeWhile_cons, hp, if_true, List.length_cons]
        omega

theorem takeWhile_length_eq_iff_all (p : Nat → Bool) (l : List Nat) :
    ((l.takeWhile p).length = l.length ↔ l.all p = true) := by
  induction l with
  | nil => simp
  | cons hd tl ih =>
      cases hp : p hd
      · simp [List.takeWhile_cons, hp]
      · simp only [List.takeWhile_cons, hp, if_true, List.length_cons,
          List.all_cons, Bool.true_and, Nat.add_right_cancel_iff]
        exact ih

theorem drop_takeWhile (p : Nat → Bool) (l : List Nat) :
    l.drop (l.takeWhile p).length = l.dropWhile p := by
  induction l with
  | nil => simp
  | cons hd tl ih =>
      cases hp : p hd
      · simp [List.takeWhile_cons, List.dropWhile_cons, hp]
      · simp [List.takeWhile_cons, List.dropWhile_cons, hp, ih]

theorem skip_spaces_loop_spec (bytes : List Nat) :
    ∀ (fuel i : Nat), bytes.length - i ≤ fuel →
    Lexer.skip_spaces_loop fuel bytes i =
      i + ((bytes.drop i).takeWhile (fun c => c == 32)).length := by
  intro fuel
  induction fuel with
  | zero =>
      intro i hle
      have hdrop : bytes.drop i = [] := List.drop_eq_nil_of_le (by omega)
      simp [Lexer.skip_spaces_loop, hdrop]
  | succ fuel ih =>
      intro i hle
      unfold Lexer.skip_spaces_loop
      split
      · next h =>
          rw [ih (i + 1) (by omega)]
          rw [drop_getD_cons h.1, h.2]
          simp only [List.takeWhile_cons, beq_self_eq_true, if_true,
            List.length_cons]
          omega
      · next h =>
          by_cases hi : i < bytes.length
          · have h32 : bytes.getD i 0 ≠ 32 := by
              intro hc
              exact h ⟨hi, hc⟩
            have hbeq : (bytes.getD i 0 == 32) = false :=
              beq_eq_false_iff_ne.mpr h32
            rw [drop_getD_cons hi]
            simp only [List.takeWhile_cons, hbeq, Bool.false_eq_true, if_false,
              List.length_nil]
            omega
          · have hdrop : bytes.drop i = [] := List.drop_eq_nil_of_le (by omega)
            simp [hdrop]

theorem skip_spaces_spec (bytes : List Nat) (i : Nat) :
    Lexer.skip_spaces bytes i =
      i + ((bytes.drop i).takeWhile (fun c => c == 32)).length :=
  skip_spaces_loop_spec bytes bytes.length i (by omega)

theorem dec_digits_loop_spec (bytes : List Nat) :
    ∀ (fuel i : Nat) (r : Int) (empty : Bool), bytes.length - i ≤ fuel →
    Lexer.dec_digits_loop fuel bytes i r empty =
      (Lexer.dec_accum r ((bytes.drop i).takeWhile (fun c => Lexer.is_digit c)),
       i + ((bytes.drop i).takeWhile (fun c => Lexer.is_digit c)).length,
       empty && ((bytes.drop i).takeWhile (fun c => Lexer.is_digit c)).isEmpty) := by
  intro fuel
  induction fuel with
  | zero =>
      intro i r empty hle
      have hdrop : bytes.drop i = [] := List.drop_eq_nil_of_le (by omega)
      simp [Lexer.dec_digits_loop, hdrop, Lexer.dec_accum]
  | succ fuel ih =>
      intro i r empty hle
      unfold Lexer.dec_digits_loop
      split
      · next h =>
          rw [ih (i + 1) _ _ (by omega)]
          rw [drop_getD_cons h.1]
          simp only [List.takeWhile_cons, h.2, if_true, List.length_cons,
            List.isEmpty_cons, Lexer.dec_accum, Prod.mk.injEq]
          refine ⟨by simp, by omega, by simp⟩
      · next h =>
          by_cases hi : i < bytes.length
          · have hd : Lexer.is_digit (bytes.getD i 0) = false := by
              cases hb : Lexer.is_digit (bytes.getD i 0)
              · rfl
              · exact absurd ⟨hi, hb⟩ h
            rw [drop_getD_cons hi]
            simp only [List.takeWhile_cons, hd, Bool.false_eq_true, if_false,
              List.length_nil, List.isEmpty_nil, Lexer.dec_accum, Prod.mk.injEq]
            refine ⟨by simp [Lexer.dec_accum], by omega, by simp⟩
          · have hdrop : bytes.drop i = [] := List.drop_eq_nil_of_le (by omega)
            simp [hdrop, Lexer.dec_accum]

theorem hex_digits_loop_spec (bytes : List Nat) :
    ∀ (fuel i : Nat) (r : Int) (empty : Bool), bytes.length - i ≤ fuel →
    Lexer.hex_digits_loop fuel bytes i r empty =
      (Lexer.hex_accum r ((bytes.drop i).takeWhile (fun c => Lexer.is_hex_digit c)),
       i + ((bytes.drop i).takeWhile (fun c => Lexer.is_hex_digit c)).length,
       empty && ((bytes.drop i).takeWhile (fun c => Lexer.is_hex_digit c)).isEmpty) := by
  intro fuel
  induction fuel with
  | zero =>
      intro i r empty hle
      have hdrop : bytes.drop i = [] := List.drop_eq_nil_of_le (by omega)
      simp [Lexer.hex_digits_loop, hdrop, Lexer.hex_accum]
  | succ fuel ih =>
      intro i r empty hle
      unfold Lexer.hex_digits_loop
      split
      · next h =>
          rw [ih (i + 1) _ _ (by omega)]
          rw [drop_getD_cons h.1]
          simp only [List.takeWhile_cons, h.2, if_true, List.length_cons,
            List.isEmpty_cons, Lexer.hex_accum, Prod.mk.injEq]
          refine ⟨by simp, by omega, by simp⟩
      · next h =>
          by_cases hi : i < bytes.length
          · have hd : Lexer.is_hex_digit (bytes.getD i 0) = false := by
              cases hb : Lexer.is_hex_digit (bytes.getD i 0)
              · rfl
              · exact absurd ⟨hi, hb⟩ h
            rw [drop_getD_cons hi]
            simp only [List.takeWhile_cons, hd, Bool.false_eq_true, if_false,
              List.length_nil, List.isEmpty_nil, Lexer.hex_accum, Prod.mk.injEq]
            refine ⟨by simp [Lexer.hex_accum], by omega, by simp⟩
          · have hdrop : bytes.drop i = [] := List.drop_eq_nil_of_le (by omega)
            simp [hdrop, Lexer.hex_accum]

theorem drop_sign_cons_45 (rest : List Nat) :
    Lexer.drop_sign (45 :: rest) = (-1, rest) := rfl

theorem drop_sign_cons_43 (rest : List Nat) :
    Lexer.drop_sign (43 :: rest) = (1, rest) := rfl

theorem drop_sign_cons_other (c : Nat) (rest : List Nat)
    (h45 : c ≠ 45) (h43 : c ≠ 43) :
    Lexer.drop_sign (c :: rest) = (1, c :: rest) := by
  show (if c = 45 then ((-1 : Int), rest) else if c = 43 then ((1 : Int), rest)
    else ((1 : Int), c :: rest)) = ((1 : Int), c :: rest)
  rw [if_neg h45, if_neg h43]

theorem drop_0x_cons2_pos (c1 c2 : Nat) (rest : List Nat)
    (h : c1 = 48 ∧ (c2 = 120 ∨ c2 = 88)) :
    Lexer.drop_0x (c1 :: c2 :: rest) = (true, rest) := by
  show (if c1 = 48 ∧ (c2 = 120 ∨ c2 = 88) then (true, rest)
    else (false, c1 :: c2 :: rest)) = (true, rest)
  rw [if_pos h]

theorem drop_0x_cons2_neg (c1 c2 : Nat) (rest : List Nat)
    (h : ¬ (c1 = 48 ∧ (c2 = 120 ∨ c2 = 88))) :
    Lexer.drop_0x (c1 :: c2 :: rest) = (false, c1 :: c2 :: rest) := by
  show (if c1 = 48 ∧ (c2 = 120 ∨ c2 = 88) then (true, rest)
    else (false, c1 :: c2 :: rest)) = (false, c1 :: c2 :: rest)
  rw [if_neg h]

theorem get_sign_drop (bytes : List Nat) (i : Nat) (hle : i ≤ bytes.length)
    (sign : Int) (i1 : Nat) (hgs : Lexer.get_sign bytes i = (sign, i1)) :
    Lexer.drop_sign (bytes.drop i) = (sign, bytes.drop i1) ∧
      i ≤ i1 ∧ i1 ≤ bytes.length := by
  unfold Lexer.get_sign at hgs
  by_cases hi : i < bytes.length
  · rw [if_pos hi] at hgs
    by_cases h45 : bytes.getD i 0 = 45
    · rw [if_pos h45] at hgs
      injection hgs with h1 h2
      subst h1
      subst h2
      rw [drop_getD_cons hi, h45, drop_sign_cons_45]
      exact ⟨rfl, by omega, by omega⟩
    · rw [if_neg h45] at hgs
      by_cases h43 : bytes.getD i 0 = 43
      · rw [if_pos h43] at hgs
        injection hgs with h1 h2
        subst h1
        subst h2
        rw [drop_getD_cons hi, h43, drop_sign_cons_43]
        exact ⟨rfl, by omega, by omega⟩
      · rw [if_neg h43] at hgs
        injection hgs with h1 h2
        subst h1
        subst h2
        rw [drop_getD_cons hi, drop_sign_cons_other _ _ h45 h43,
          ← drop_getD_cons hi]
        exact ⟨rfl, by omega, by omega⟩
  · rw [if_neg hi] at hgs
    injection hgs with h1 h2
    subst h1
    subst h2
    have hdrop : bytes.drop i = [] := List.drop_eq_nil_of_le (by omega)
    rw [hdrop]
    exact ⟨rfl, by omega, by omega⟩

theorem prefix_cases (bytes : List Nat) (i : Nat) (hle : i ≤ bytes.length) :
    (Lexer.starts_with_0x bytes i = true ∧
       Lexer.drop_0x (bytes.drop i) = (true, bytes.drop (i + 2)) ∧
       i + 2 < bytes.length) ∨
    (Lexer.starts_with_0x bytes i = false ∧
       (∃ x, (x = 120 ∨ x = 88) ∧ bytes.drop i = [48, x] ∧
         bytes.length = i + 2)) ∨
    (Lexer.starts_with_0x bytes i = false ∧
       Lexer.drop_0x (bytes.drop i) = (false, bytes.drop i)) := by
  by_cases hst : Lexer.starts_with_0x bytes i = true
  · left
    refine ⟨hst, ?_⟩
    unfold Lexer.starts_with_0x at hst
    simp only [Bool.and_eq_true, Bool.or_eq_true, decide_eq_true_eq,
      beq_iff_eq] at hst
    obtain ⟨⟨hlen3, h48⟩, hx⟩ := hst
    have hi : i < bytes.length := by omega
    have hi1 : i + 1 < bytes.length := by omega
    have hdc : bytes.drop i = 48 :: bytes.getD (i + 1) 0 :: bytes.drop (i + 2) := by
      rw [drop_getD_cons hi, h48, drop_getD_cons hi1]
    rw [hdc, drop_0x_cons2_pos _ _ _ ⟨rfl, hx⟩]
    exact ⟨rfl, by omega⟩
  · right
    have hst0 : Lexer.starts_with_0x bytes i = false := by
      cases hb : Lexer.starts_with_0x bytes i
      · rfl
      · exact absurd hb hst
    rcases hdc : bytes.drop i with _ | ⟨c1, rest1⟩
    · right
      exact ⟨hst0, rfl⟩
    · rcases hr1 : rest1 with _ | ⟨c2, rest2⟩
      · right
        subst hr1
        exact ⟨hst0, rfl⟩
      · subst hr1
        have hi : i < bytes.length := by
          by_contra hge
          rw [List.drop_eq_nil_of_le (by omega)] at hdc
          exact List.noConfusion hdc
        have hhead := drop_getD_cons hi
        rw [hdc] at hhead
        injection hhead with hc1 htail
        have hi1 : i + 1 < bytes.length := by
          by_contra hge
          rw [List.drop_eq_nil_of_le (by omega)] at htail
          exact List.noConfusion htail
        have hhead2 := drop_getD_cons hi1
        rw [← htail] at hhead2
        injection hhead2 with hc2 htail2
        by_cases hcond : c1 = 48 ∧ (c2 = 120 ∨ c2 = 88)
        · left
          have hlen2 : ¬ (bytes.length > i + 2) := by
            intro hgt
            have hgetd1 : bytes.getD i 0 = 48 := by
              rw [← hc1]
              exact hcond.1
            have hgetd2 : bytes.getD (i + 1) 0 = 120 ∨ bytes.getD (i + 1) 0 = 88 := by
              rcases hcond.2 with h5 | h5
              · left
                rw [← hc2]
                exact h5
              · right
                rw [← hc2]
                exact h5
            have htrue : Lexer.starts_with_0x bytes i = true := by
              unfold Lexer.starts_with_0x
              simp only [Bool.and_eq_true, Bool.or_eq_true, decide_eq_true_eq,
                beq_iff_eq]
              exact ⟨⟨hgt, hgetd1⟩, hgetd2⟩
            rw [htrue] at hst0
            exact Bool.noConfusion hst0
          have hdlen := congrArg List.length hdc
          rw [List.length_drop] at hdlen
          simp at hdlen
          have hrest : rest2 = [] := by
            have h0 : rest2.length = 0 := by omega
            exact List.length_eq_zero.mp h0
          refine ⟨hst0, c2, hcond.2, ?_, by omega⟩
          rw [hrest, hcond.1]
        · right
          exact ⟨hst0, drop_0x_cons2_neg _ _ _ hcond⟩

theorem trailing_check (bytes : List Nat) (i2 : Nat) (hle : i2 ≤ bytes.length) :
    (Lexer.skip_spaces bytes i2 = bytes.length) ↔
      ((bytes.drop i2).all (fun c => c == 32) = true) := by
  rw [skip_spaces_spec]
  rw [← takeWhile_length_eq_iff_all]
  have hld : (bytes.drop i2).length = bytes.length - i2 := List.length_drop i2 bytes
  have htle := takeWhile_length_le (fun c => c == 32) (bytes.drop i2)
  omega

theorem digit_pred_true :
    Lexer.digit_pred true = fun c => Lexer.is_hex_digit c := by
  funext c
  simp [Lexer.digit_pred]

theorem digit_pred_false :
    Lexer.digit_pred false = fun c => Lexer.is_digit c := by
  funext c
  simp [Lexer.digit_pred]

/-- Claim C7 as amended: `str_to_int` accepts optional leading spaces, an
optional sign, then an optional `0x`/`0X` prefix, accumulates base-10
(base-16) digits, and returns `none` exactly when the digit sequence is
empty or a non-space, non-digit character trails the digits; otherwise
it returns the signed accumulated value (wrapping modulo `2^64`).  This
is stated as: `str_to_int` coincides with the parser transcribed from
the amended claim. -/
theorem C7_str_to_int_amended (bytes : List Nat) :
    Lexer.str_to_int bytes = Lexer.str_to_int_spec bytes := by
  unfold Lexer.str_to_int Lexer.str_to_int_spec
  have h0 : Lexer.skip_spaces bytes 0 = (bytes.takeWhile (fun c => c == 32)).length := by
    have hs := skip_spaces_spec bytes 0
    simpa using hs
  have hi0le : Lexer.skip_spaces bytes 0 ≤ bytes.length := by
    have hl := takeWhile_length_le (fun c => c == 32) bytes
    omega
  have hdrop0 : bytes.drop (Lexer.skip_spaces bytes 0) =
      bytes.dropWhile (fun c => c == 32) := by
    rw [h0]
    exact drop_takeWhile (fun c => c == 32) bytes
  rcases hgs : Lexer.get_sign bytes (Lexer.skip_spaces bytes 0) with ⟨sign, i1⟩
  obtain ⟨hsign, hi1ge, hi1le⟩ := get_sign_drop bytes _ hi0le sign i1 hgs
  simp only [hgs, ← hdrop0, hsign]
  rcases prefix_cases bytes i1 hi1le with ⟨hst, hdx, hlt⟩ | ⟨hst, x, hxv, hdi, hlen⟩ |
    ⟨hst, hdx⟩
  · -- hex prefix taken by both the code and the claimed parser
    simp only [hst, if_true, hdx, digit_pred_true]
    rw [hex_digits_loop_spec bytes bytes.length (i1 + 2) 0 true (by omega)]
    have hrest : (bytes.drop (i1 + 2)).dropWhile (fun c => Lexer.is_hex_digit c) =
        bytes.drop (i1 + 2 +
          ((bytes.drop (i1 + 2)).takeWhile (fun c => Lexer.is_hex_digit c)).length) := by
      rw [← drop_takeWhile (fun c => Lexer.is_hex_digit c) (bytes.drop (i1 + 2)),
        List.drop_drop]
    have hi2le : i1 + 2 +
        ((bytes.drop (i1 + 2)).takeWhile (fun c => Lexer.is_hex_digit c)).length ≤
        bytes.length := by
      have h1 := takeWhile_length_le (fun c => Lexer.is_hex_digit c) (bytes.drop (i1 + 2))
      have h2 : (bytes.drop (i1 + 2)).length = bytes.length - (i1 + 2) :=
        List.length_drop _ _
      omega
    have htr := trailing_check bytes _ hi2le
    refine if_congr (or_congr ?_ (not_congr ?_)) rfl rfl
    · rw [Bool.true_and]
      exact List.isEmpty_iff
    · rw [hrest]
      exact htr
  · -- degenerate prefix: the buffer ends right after the 0x
    have hfalse : (Lexer.starts_with_0x bytes i1 = true) = False := by
      simp [hst]
    simp only [hst, Bool.false_eq_true, if_false]
    rw [dec_digits_loop_spec bytes bytes.length i1 0 true (by omega)]
    have hdrop11 : bytes.drop (i1 + 1) = [x] := by
      have h2 := congrArg (List.drop 1) hdi
      rw [List.drop_drop] at h2
      simpa [Nat.add_comm] using h2
    have htw : (bytes.drop i1).takeWhile (fun c => Lexer.is_digit c) = [48] := by
      rw [hdi]
      rcases hxv with rfl | rfl <;> decide
    have hdx2 : Lexer.drop_0x (bytes.drop i1) = (true, []) := by
      rw [hdi]
      rcases hxv with rfl | rfl
      · exact drop_0x_cons2_pos _ _ _ ⟨rfl, Or.inl rfl⟩
      · exact drop_0x_cons2_pos _ _ _ ⟨rfl, Or.inr rfl⟩
    have hsp1 : (List.takeWhile (fun c => c == 32) (bytes.drop (i1 + 1))) = [] := by
      rw [hdrop11]
      rcases hxv with rfl | rfl <;> decide
    have hskip2 : Lexer.skip_spaces bytes (i1 + 1) = i1 + 1 := by
      rw [skip_spaces_spec, hsp1]
      rfl
    rw [htw, hdx2]
    dsimp only
    simp only [List.length_cons, List.length_nil, List.isEmpty_cons, Bool.and_false,
      List.takeWhile_nil, List.dropWhile_nil, List.all_nil]
    rw [hskip2, hlen]
    simp
  · -- no prefix: decimal on both sides
    simp only [hst, Bool.false_eq_true, if_false, hdx, digit_pred_false]
    rw [dec_digits_loop_spec bytes bytes.length i1 0 true (by omega)]
    have hrest : (bytes.drop i1).dropWhile (fun c => Lexer.is_digit c) =
        bytes.drop (i1 +
          ((bytes.drop i1).takeWhile (fun c => Lexer.is_digit c)).length) := by
      rw [← drop_takeWhile (fun c => Lexer.is_digit c) (bytes.drop i1),
        List.drop_drop]
    have hi2le : i1 + ((bytes.drop i1).takeWhile (fun c => Lexer.is_digit c)).length ≤
        bytes.length := by
      have h1 := takeWhile_length_le (fun c => Lexer.is_digit c) (bytes.drop i1)
      have h2 : (bytes.drop i1).length = bytes.length - i1 := List.length_drop _ _
      omega
    have htr := trailing_check bytes _ hi2le
    refine if_congr (or_congr ?_ (not_congr ?_)) rfl rfl
    · rw [Bool.true_and]
      exact List.isEmpty_iff
    · rw [hrest]
      exact htr

/-- Counterexample to claim C7 as stated: on the input "1 " (a non-digit
character, a space, trails the digits) the claim demands `none`, but
`str_to_int` skips the trailing space and succeeds with 1. -/
theorem C7_counterexample :
    Lexer.str_to_int (Lexer.asciiBytes "1 ") = some 1 ∧
    Lexer.str_to_int_claim (Lexer.asciiBytes "1 ") = none ∧
    Lexer.str_to_int (Lexer.asciiBytes "1 ") ≠
      Lexer.str_to_int_claim (Lexer.asciiBytes "1 ") :=
  ⟨by decide, by decide, by decide⟩

/-! ### Compile-time invariants (claims C1 and C2): groundwork -/

theorem StepOK_refl (c : ProtoContext) : StepOK c c :=
  ⟨le_refl _, le_refl _, le_refl _, le_refl _, le_refl _,
   fun _ ins h => ⟨ins, h, rfl⟩⟩

theorem StepOK_trans {a b c : ProtoContext} (h1 : StepOK a b) (h2 : StepOK b c) :
    StepOK a c := by
  refine ⟨le_trans h1.1 h2.1, le_trans h1.2.1 h2.2.1,
    le_trans h1.2.2.1 h2.2.2.1, le_trans h1.2.2.2.1 h2.2.2.2.1,
    le_trans h1.2.2.2.2.1 h2.2.2.2.2.1, ?_⟩
  intro i ins h
  obtain ⟨ins', h', hop⟩ := h1.2.2.2.2.2 i ins h
  obtain ⟨ins'', h'', hop'⟩ := h2.2.2.2.2.2 i ins' h'
  exact ⟨ins'', h'', by rw [hop', hop]⟩

theorem regBound_mono {c c' : ProtoContext} (hs : StepOK c c') :
    regBound c ≤ regBound c' :=
  max_le_max hs.1 hs.2.2.2.1

theorem ResOK_mono {r : ExprResult} {c c' : ProtoContext}
    (h : ResOK r c) (hs : StepOK c c') : ResOK r c' := by
  cases r with
  | Reg rg => exact lt_of_lt_of_le h (regBound_mono hs)
  | Jump j =>
      obtain ⟨hreg, ins, hins, hop⟩ := h
      obtain ⟨ins', hins', hop'⟩ := hs.2.2.2.2.2 j.pc ins hins
      exact ⟨lt_of_lt_of_le hreg (regBound_mono hs), ins', hins', by rw [hop', hop]⟩
  | Const k => trivial
  | Nil => trivial
  | True => trivial
  | False => trivial

theorem InOK_mono {input : Option Nat} {c c' : ProtoContext}
    (h : InOK input c) (hs : StepOK c c') : InOK input c' :=
  fun r hr => lt_of_lt_of_le (h r hr) (regBound_mono hs)

theorem rk_ok_mono {v : Nat} {c c' : ProtoContext}
    (h : rk_ok v c) (hs : StepOK c c') : rk_ok v c' := by
  rcases h with ⟨idx, hlt, hv⟩ | hreg
  · exact Or.inl ⟨idx, lt_of_lt_of_le hlt hs.2.2.1, hv⟩
  · exact Or.inr (lt_of_lt_of_le hreg (regBound_mono hs))

theorem add_eq_lor_256 : ∀ s, s < 256 → 256 + s = 256 ||| s := by decide

theorem lor256_mod512 (idx : Nat) : (256 ||| idx) % 512 = 256 + idx % 256 := by
  have hs : idx % 256 < 256 := Nat.mod_lt _ (by omega)
  rw [add_eq_lor_256 (idx % 256) hs]
  show (2 ^ 8 ||| idx) % 2 ^ 9 = 2 ^ 8 ||| idx % 2 ^ 8
  apply Nat.eq_of_testBit_eq
  intro i
  rw [Nat.testBit_mod_two_pow, Nat.testBit_lor, Nat.testBit_lor,
    Nat.testBit_two_pow, Nat.testBit_mod_two_pow]
  by_cases h8 : 8 = i
  · subst h8
    simp
  · by_cases h9 : i < 8
    · simp [h8, h9, show i < 9 from by omega]
    · simp [h8, h9, show ¬ i < 9 from by omega]

theorem rk_field_ok (v : Nat) (c : ProtoContext) (h : rk_ok v c) :
    field_rk_ok (v % 512) c.proto.consts.length (regBound c) := by
  intro hrb hge
  rcases h with ⟨idx, hlt, hv⟩ | hreg
  · subst hv
    rw [lor256_mod512] at hge ⊢
    have hmle : idx % 256 ≤ idx := Nat.mod_le _ _
    omega
  · have hv : v < 256 := by omega
    rw [Nat.mod_eq_of_lt (by omega)] at hge
    omega

theorem field_rk_ok_small (v len rb : Nat) (h : v < 256) :
    field_rk_ok (v % 512) len rb := by
  intro _ hge
  rw [Nat.mod_eq_of_lt (by omega)] at hge
  omega

theorem create_ABC_bits (op : OpCode) (a b c : Nat) :
    instr_bits_ok (Instruction.create_ABC op a b c) := by
  have h1 : a % 256 < 256 := Nat.mod_lt _ (by omega)
  have h2 : b % 512 < 512 := Nat.mod_lt _ (by omega)
  have h3 : c % 512 < 512 := Nat.mod_lt _ (by omega)
  exact ⟨h1, by show (b % 512) * 512 + c % 512 < 262144; omega⟩

theorem create_ABx_bits (op : OpCode) (a bx : Nat) :
    instr_bits_ok (Instruction.create_ABx op a bx) :=
  ⟨Nat.mod_lt _ (by omega), Nat.mod_lt _ (by omega)⟩

theorem create_AsBx_bits (op : OpCode) (a : Nat) (sbx : Int) :
    instr_bits_ok (Instruction.create_AsBx op a sbx) :=
  ⟨Nat.mod_lt _ (by omega), Nat.mod_lt _ (by omega)⟩

theorem set_arg_A_bits (i : Instruction) (h : instr_bits_ok i) (a : Nat) :
    instr_bits_ok (i.set_arg_A a) :=
  ⟨Nat.mod_lt _ (by omega), h.2⟩

theorem set_arg_sBx_bits (i : Instruction) (h : instr_bits_ok i) (v : Int) :
    instr_bits_ok (i.set_arg_sBx v) :=
  ⟨h.1, Nat.mod_lt _ (by omega)⟩

theorem create_ABC_argB (op : OpCode) (a b c : Nat) :
    (Instruction.create_ABC op a b c).get_arg_B = b % 512 := by
  show ((b % 512) * 512 + c % 512) / 512 = b % 512
  have h3 : c % 512 < 512 := Nat.mod_lt _ (by omega)
  omega

theorem create_ABC_argC (op : OpCode) (a b c : Nat) :
    (Instruction.create_ABC op a b c).get_arg_C = c % 512 := by
  show ((b % 512) * 512 + c % 512) % 512 = c % 512
  have h3 : c % 512 < 512 := Nat.mod_lt _ (by omega)
  omega

theorem create_ABC_rk_ok (op : OpCode) (a b c : Nat) (cst : ProtoContext)
    (hb : rk_ok b cst) (hc : rk_ok c cst) :
    InstrOK (Instruction.create_ABC op a b c) cst.proto.consts.length
      (regBound cst) := by
  intro _
  rw [create_ABC_argB, create_ABC_argC]
  exact ⟨rk_field_ok b cst hb, rk_field_ok c cst hc⟩

theorem create_ABC_rk_ok_small (op : OpCode) (a b c : Nat) (cst : ProtoContext)
    (hb : rk_ok b cst) (hc : c < 256) :
    InstrOK (Instruction.create_ABC op a b c) cst.proto.consts.length
      (regBound cst) := by
  intro _
  rw [create_ABC_argB, create_ABC_argC]
  exact ⟨rk_field_ok b cst hb, field_rk_ok_small c _ _ hc⟩

theorem non_rk_instr_ok (ins : Instruction) (len rb : Nat)
    (h : isRKOp ins.op = false) : InstrOK ins len rb := by
  intro hc
  rw [h] at hc
  exact Bool.noConfusion hc

theorem set_arg_A_instr_ok (i : Instruction) (len rb : Nat)
    (h : InstrOK i len rb) (a : Nat) : InstrOK (i.set_arg_A a) len rb := by
  intro hop
  exact h hop

theorem instr_ok_mono {ins : Instruction} {len rb len' rb' : Nat}
    (h : InstrOK ins len rb) (hl : len ≤ len') (hr : rb ≤ rb') :
    InstrOK ins len' rb' := by
  intro hop
  obtain ⟨hb, hc⟩ := h hop
  exact ⟨fun h1 h2 => lt_of_lt_of_le (hb (le_trans hr h1) h2) hl,
    fun h1 h2 => lt_of_lt_of_le (hc (le_trans hr h1) h2) hl⟩

theorem check_stack_eq (c : ProtoContext) (n : Nat) :
    c.check_stack n =
      { c with proto := { c.proto with
          stack_size := max c.proto.stack_size (c.reg_top + n) } } := by
  simp only [ProtoContext.check_stack]
  split
  · rw [Nat.max_eq_right (by omega)]
  · rw [Nat.max_eq_left (by omega)]

theorem reserve_regs_eq (c : ProtoContext) (n : Nat) :
    c.reserve_regs n = (c.reg_top,
      { reg_top := c.reg_top + n,
        max_top := max c.max_top (c.reg_top + n),
        proto := { c.proto with
          stack_size := max c.proto.stack_size (c.reg_top + n) } }) := by
  simp only [ProtoContext.reserve_regs, check_stack_eq]

theorem reserve_regs_ok (c : ProtoContext) (n : Nat) (hInv : Inv c) :
    Inv (c.reserve_regs n).2 ∧ StepOK c (c.reserve_regs n).2 ∧
      (c.reserve_regs n).1 = c.reg_top ∧
      (c.reserve_regs n).2.reg_top = c.reg_top + n ∧
      c.reg_top + n ≤ (c.reserve_regs n).2.max_top := by
  obtain ⟨h1, h2, h3, h4⟩ := hInv
  rw [reserve_regs_eq]
  refine ⟨⟨le_max_right _ _, max_le_max h2 (le_refl _), h3, ?_⟩,
    ⟨le_max_left _ _, le_max_left _ _, le_refl _, le_refl _, le_refl _,
      fun _ ins hh => ⟨ins, hh, rfl⟩⟩, rfl, rfl, le_max_right _ _⟩
  intro ins hins
  obtain ⟨hb, hok⟩ := h4 ins hins
  exact ⟨hb, instr_ok_mono hok (le_refl _)
    (max_le_max (le_max_left _ _) (le_refl _))⟩

theorem free_reg_ok (c : ProtoContext) (n : Nat) (c' : ProtoContext)
    (h : c.free_reg n = some c') (hInv : Inv c) :
    Inv c' ∧ StepOK c c' ∧ c'.proto = c.proto ∧ c'.max_top = c.max_top := by
  unfold ProtoContext.free_reg at h
  split at h
  · obtain ⟨h1, h2, h3, h4⟩ := hInv
    injection h with h
    subst h
    exact ⟨⟨show c.reg_top - n ≤ c.max_top by omega, h2, h3, h4⟩,
      ⟨le_refl _, le_refl _, le_refl _, le_refl _, le_refl _,
        fun _ ins hh => ⟨ins, hh, rfl⟩⟩, rfl, rfl⟩
  · exact Option.noConfusion h

theorem add_const_ok (c : ProtoContext) (k : Const) (hInv : Inv c) :
    Inv { c with proto := (c.proto.add_const k).2 } ∧
      StepOK c { c with proto := (c.proto.add_const k).2 } ∧
      (c.proto.add_const k).1 < (c.proto.add_const k).2.consts.length := by
  obtain ⟨h1, h2, h3, h4⟩ := hInv
  rcases hm : Proto.map_get c.proto.const_map k with _ | i
  · rw [add_const_new c.proto k hm]
    refine ⟨⟨h1, h2, ?_, ?_⟩,
      ⟨le_refl _, le_refl _, ?_, le_refl _, le_refl _,
        fun _ ins hh => ⟨ins, hh, rfl⟩⟩, ?_⟩
    · have hw := add_const_wf c.proto k h3
      rw [add_const_new c.proto k hm] at hw
      exact hw
    · intro ins hins
      obtain ⟨hb, hok⟩ := h4 ins hins
      refine ⟨hb, instr_ok_mono hok ?_ (le_refl _)⟩
      simp
    · simp
    · simp
  · rw [add_const_found c.proto k i hm]
    exact ⟨⟨h1, h2, h3, h4⟩, StepOK_refl _, get?_some_lt (h3 k i hm)⟩

theorem set_instr_step (c : ProtoContext) (idx : Nat) (ins new : Instruction)
    (hg : c.proto.code.get? idx = some ins)
    (hop : new.op = ins.op)
    (hbits : instr_bits_ok new)
    (hok : InstrOK new c.proto.consts.length (regBound c))
    (hInv : Inv c) :
    Inv { c with proto := { c.proto with code := c.proto.code.set idx new } } ∧
      StepOK c { c with proto := { c.proto with code := c.proto.code.set idx new } } := by
  obtain ⟨h1, h2, h3, h4⟩ := hInv
  refine ⟨⟨h1, h2, h3, ?_⟩,
    le_refl _, le_refl _, le_refl _, le_refl _, by simp, ?_⟩
  · intro ins' hins'
    rcases List.mem_or_eq_of_mem_set hins' with hmem | heq
    · exact h4 ins' hmem
    · subst heq
      exact ⟨hbits, hok⟩
  · intro i ins0 hi
    by_cases hie : i = idx
    · subst hie
      have hieq : ins0 = ins := by
        rw [hg] at hi
        injection hi with hi
        exact hi.symm
      refine ⟨new, ?_, ?_⟩
      · show (c.proto.code.set i new).get? i = some new
        exact get?_set_self _ _ _ (get?_some_lt hi)
      · rw [hop, hieq]
    · refine ⟨ins0, ?_, rfl⟩
      show (c.proto.code.set idx new).get? i = some ins0
      rw [List.get?_eq_getElem?, List.getElem?_set_ne (by omega)]
      rw [← List.get?_eq_getElem?]
      exact hi

theorem push_instr_ok (c : ProtoContext) (ins : Instruction)
    (hbits : instr_bits_ok ins)
    (hok : InstrOK ins c.proto.consts.length (regBound c))
    (hInv : Inv c) :
    Inv { c with proto := { c.proto with code := c.proto.code ++ [ins] } } ∧
      StepOK c { c with proto := { c.proto with code := c.proto.code ++ [ins] } } := by
  obtain ⟨h1, h2, h3, h4⟩ := hInv
  refine ⟨⟨h1, h2, h3, ?_⟩,
    le_refl _, le_refl _, le_refl _, le_refl _, by simp, ?_⟩
  · intro ins' hins'
    rcases List.mem_append.mp hins' with hmem | hmem
    · exact h4 ins' hmem
    · rw [List.mem_singleton.mp hmem]
      exact ⟨hbits, hok⟩
  · intro i ins0 hi
    exact ⟨ins0, by rw [get?_append_left [ins] (get?_some_lt hi)]; exact hi, rfl⟩

theorem position_lt (name : String) (l : List LocalVal) (i : Nat)
    (h : Proto.position name l = some i) : i < l.length := by
  induction l generalizing i with
  | nil => exact Option.noConfusion h
  | cons a t ih =>
      unfold Proto.position at h
      split at h
      · injection h with h
        simp [← h]
      · obtain ⟨j, hj, hji⟩ := Option.map_eq_some'.mp h
        have := ih j hj
        simp only [List.length_cons]
        omega

theorem reg_resolve_ok (r : Reg) (c c' : ProtoContext)
    (h : r.resolve c = some c') (hInv : Inv c) :
    Inv c' ∧ StepOK c c' ∧ c'.proto = c.proto := by
  unfold Reg.resolve at h
  split at h
  · obtain ⟨hi, hs, hp, _⟩ := free_reg_ok c 1 c' h hInv
    exact ⟨hi, hs, hp⟩
  · injection h with h
    subst h
    exact ⟨hInv, StepOK_refl c, rfl⟩

theorem push2_instr_ok (c : ProtoContext) (i1 i2 : Instruction)
    (hb1 : instr_bits_ok i1) (hb2 : instr_bits_ok i2)
    (ho1 : InstrOK i1 c.proto.consts.length (regBound c))
    (ho2 : InstrOK i2 c.proto.consts.length (regBound c))
    (hInv : Inv c) :
    Inv { c with proto := { c.proto with code := c.proto.code ++ [i1] ++ [i2] } } ∧
      StepOK c { c with proto := { c.proto with code := c.proto.code ++ [i1] ++ [i2] } } := by
  have s1 := push_instr_ok c i1 hb1 ho1 hInv
  have s2 := push_instr_ok
    { c with proto := { c.proto with code := c.proto.code ++ [i1] } } i2 hb2 ho2 s1.1
  exact ⟨s2.1, StepOK_trans s1.2 s2.2⟩

theorem jump_resolve_ok (j : Jump) (c c' : ProtoContext)
    (h : j.resolve c = some c') (hInv : Inv c)
    (hres : ResOK (ExprResult.Jump j) c) :
    Inv c' ∧ StepOK c c' := by
  obtain ⟨hreg, insJ, hinsJ, hopJ⟩ := hres
  have hbitsJ : instr_bits_ok insJ := (hInv.2.2.2 insJ (List.get?_mem hinsJ)).1
  have s2 := push2_instr_ok c (Instruction.create_ABC .LoadBool j.reg.reg 0 1)
    (Instruction.create_ABC .LoadBool j.reg.reg 1 0)
    (create_ABC_bits _ _ _ _) (create_ABC_bits _ _ _ _)
    (non_rk_instr_ok _ _ _ rfl) (non_rk_instr_ok _ _ _ rfl) hInv
  have hlt1 : j.pc < (c.proto.code ++ [Instruction.create_ABC .LoadBool j.reg.reg 0 1]).length := by
    have := get?_some_lt hinsJ
    simp only [List.length_append, List.length_cons, List.length_nil]
    omega
  have hget : ((c.proto.code ++ [Instruction.create_ABC .LoadBool j.reg.reg 0 1]) ++ [Instruction.create_ABC .LoadBool j.reg.reg 1 0]).get? j.pc = some insJ := by
    rw [get?_append_left _ hlt1, get?_append_left _ (get?_some_lt hinsJ)]
    exact hinsJ
  have h' : (match Jump.fix j (((c.proto.code ++ [Instruction.create_ABC .LoadBool j.reg.reg 0 1]) ++ [Instruction.create_ABC .LoadBool j.reg.reg 1 0]).length - 1)
      { c.proto with code := ((c.proto.code ++ [Instruction.create_ABC .LoadBool j.reg.reg 0 1]) ++ [Instruction.create_ABC .LoadBool j.reg.reg 1 0]) } with
    | some p3 => j.reg.resolve { c with proto := p3 }
    | none => none) = some c' := h
  rw [fix_spec j (((c.proto.code ++ [Instruction.create_ABC .LoadBool j.reg.reg 0 1]) ++ [Instruction.create_ABC .LoadBool j.reg.reg 1 0]).length - 1) { c.proto with code := ((c.proto.code ++ [Instruction.create_ABC .LoadBool j.reg.reg 0 1]) ++ [Instruction.create_ABC .LoadBool j.reg.reg 1 0]) } insJ hget] at h'
  have h'' : j.reg.resolve { c with proto :=
      { c.proto with code := ((c.proto.code ++ [Instruction.create_ABC .LoadBool j.reg.reg 0 1]) ++ [Instruction.create_ABC .LoadBool j.reg.reg 1 0]).set j.pc (insJ.set_arg_sBx
        (((((c.proto.code ++ [Instruction.create_ABC .LoadBool j.reg.reg 0 1]) ++ [Instruction.create_ABC .LoadBool j.reg.reg 1 0]).length - 1 : Nat) : Int) - (j.pc : Int) - 1)) } } = some c' := h'
  have hset := set_instr_step { c with proto := { c.proto with code := ((c.proto.code ++ [Instruction.create_ABC .LoadBool j.reg.reg 0 1]) ++ [Instruction.create_ABC .LoadBool j.reg.reg 1 0]) } } j.pc insJ
    (insJ.set_arg_sBx (((((c.proto.code ++ [Instruction.create_ABC .LoadBool j.reg.reg 0 1]) ++ [Instruction.create_ABC .LoadBool j.reg.reg 1 0]).length - 1 : Nat) : Int) - (j.pc : Int) - 1))
    hget rfl (set_arg_sBx_bits insJ hbitsJ _)
    (fun hrk => absurd hrk (by simp [Instruction.set_arg_sBx, hopJ, isRKOp]))
    s2.1
  obtain ⟨hi3, hs3, _⟩ := reg_resolve_ok j.reg _ c' h'' hset.1
  exact ⟨hi3, StepOK_trans s2.2 (StepOK_trans hset.2 hs3)⟩

theorem jump_inverse_ok (j : Jump) (c c' : ProtoContext)
    (h : j.inverse c = some c') (hInv : Inv c) :
    Inv c' ∧ StepOK c c' := by
  unfold Jump.inverse at h
  split at h
  · exact Option.noConfusion h
  · rcases hm : c.proto.modifyInstr (j.pc - 1)
        (fun i => i.set_arg_A ((257 - i.get_arg_A) % 256)) with _ | p'
    · rw [hm] at h
      exact Option.noConfusion h
    · rw [hm] at h
      have h2 : some { c with proto := p' } = some c' := h
      injection h2 with h2
      subst h2
      unfold Proto.modifyInstr at hm
      rcases hg : c.proto.code.get? (j.pc - 1) with _ | ins
      · rw [hg] at hm
        exact Option.noConfusion hm
      · rw [hg] at hm
        have hm2 : some ({ c.proto with code := (c.proto.code.set (j.pc - 1)
          (ins.set_arg_A ((257 - ins.get_arg_A) % 256))) } : Proto) = some p' := hm
        injection hm2 with hm2
        subst hm2
        have hbi := hInv.2.2.2 ins (List.get?_mem hg)
        exact set_instr_step c (j.pc - 1) ins _ hg rfl
          (set_arg_A_bits ins hbi.1 _) (set_arg_A_instr_ok ins _ _ hbi.2 _) hInv

theorem expr_resolve_ok (e : ExprResult) (c c' : ProtoContext)
    (h : e.resolve c = some c') (hInv : Inv c) (hres : ResOK e c) :
    Inv c' ∧ StepOK c c' := by
  cases e with
  | Reg r =>
      obtain ⟨a, b, _⟩ := reg_resolve_ok r c c' h hInv
      exact ⟨a, b⟩
  | Jump j => exact jump_resolve_ok j c c' h hInv hres
  | Const k =>
      injection h with h
      subst h
      exact ⟨hInv, StepOK_refl c⟩
  | Nil =>
      injection h with h
      subst h
      exact ⟨hInv, StepOK_refl c⟩
  | True =>
      injection h with h
      subst h
      exact ⟨hInv, StepOK_refl c⟩
  | False =>
      injection h with h
      subst h
      exact ⟨hInv, StepOK_refl c⟩

theorem get_rk_ok (e : ExprResult) (c : ProtoContext) (v : Nat) (c' : ProtoContext)
    (h : e.get_rk c = some (v, c')) (hInv : Inv c) (hres : ResOK e c) :
    Inv c' ∧ StepOK c c' ∧ rk_ok v c' := by
  cases e with
  | Const k =>
      rcases hac : c.proto.add_const k with ⟨index, p'⟩
      have hrw : (ExprResult.Const k).get_rk c =
          some ((MASK_K ||| index : Nat), ({ c with proto := p' } : ProtoContext)) := by
        simp only [ExprResult.get_rk, hac]
      rw [hrw] at h
      injection h with h2
      obtain ⟨hv, hc⟩ := Prod.mk.injEq _ _ _ _ |>.mp h2
      subst hv
      subst hc
      obtain ⟨hi, hs, hidx⟩ := add_const_ok c k hInv
      rw [hac] at hi hs hidx
      exact ⟨hi, hs, Or.inl ⟨index, hidx, rfl⟩⟩
  | Reg r =>
      have h2 : some ((r.reg, c) : Nat × ProtoContext) = some (v, c') := h
      injection h2 with h2
      obtain ⟨hv, hc⟩ := Prod.mk.injEq _ _ _ _ |>.mp h2
      subst hv
      subst hc
      exact ⟨hInv, StepOK_refl c, Or.inr hres⟩
  | Jump jj =>
      have h2 : some ((jj.reg.reg, c) : Nat × ProtoContext) = some (v, c') := h
      injection h2 with h2
      obtain ⟨hv, hc⟩ := Prod.mk.injEq _ _ _ _ |>.mp h2
      subst hv
      subst hc
      exact ⟨hInv, StepOK_refl c, Or.inr hres.1⟩
  | Nil => exact Option.noConfusion h
  | True => exact Option.noConfusion h
  | False => exact Option.noConfusion h

theorem un_opcode_rk (op : UnOp) : isRKOp (Proto.un_opcode op) = true := by
  cases op <;> rfl

theorem bin_opcode_rk (op : BinOp) (oc : OpCode)
    (h : Proto.bin_opcode op = some oc) : isRKOp oc = true := by
  cases op <;>
    first
      | exact Option.noConfusion h
      | (injection h with h; rw [← h]; rfl)

theorem comp_opcode_rk (op : BinOp) (oc : OpCode)
    (h : Proto.comp_opcode op = some oc) : isRKOp oc = true := by
  cases op <;>
    first
      | exact Option.noConfusion h
      | (injection h with h; rw [← h]; rfl)

theorem code_un_op_inv (op : UnOp) (input : Option Nat) (e : ExprResult)
    (c : ProtoContext) (res : ExprResult) (c' : ProtoContext)
    (h : Compiler.code_un_op op input e c = some (res, c'))
    (hInv : Inv c) (hres : ResOK e c) (hin : InOK input c) :
    Inv c' ∧ StepOK c c' ∧ ResOK res c' := by
  rcases hrk : e.get_rk c with _ | ⟨src, c1⟩
  · unfold Compiler.code_un_op at h
    rw [hrk] at h
    exact Option.noConfusion h
  · obtain ⟨hi1, hs1, hrk1⟩ := get_rk_ok e c src c1 hrk hInv hres
    cases input with
    | some r =>
        have h2 : (match e.resolve c1 with
          | none => none
          | some c3 => some ((ExprResult.new_reg r : ExprResult),
              ({ c3 with proto := (c3.proto.code_un_op op r src).2 } : ProtoContext)))
            = some (res, c') := by
          rw [← h]
          unfold Compiler.code_un_op
          rw [hrk]
        rcases hrv : e.resolve c1 with _ | c3
        · rw [hrv] at h2
          exact Option.noConfusion h2
        · rw [hrv] at h2
          have h3 : some ((ExprResult.new_reg r : ExprResult),
              ({ c3 with proto := (c3.proto.code_un_op op r src).2 } : ProtoContext))
            = some (res, c') := h2
          injection h3 with h3
          obtain ⟨hv, hc⟩ := Prod.mk.injEq _ _ _ _ |>.mp h3
          subst hv
          subst hc
          obtain ⟨hi3, hs3⟩ := expr_resolve_ok e c1 c3 hrv hi1 (ResOK_mono hres hs1)
          have hpush := push_instr_ok c3
            (Instruction.create_ABC (Proto.un_opcode op) r src 0)
            (create_ABC_bits _ _ _ _)
            (create_ABC_rk_ok_small _ _ _ _ c3 (rk_ok_mono hrk1 hs3) (by omega)) hi3
          refine ⟨hpush.1, StepOK_trans hs1 (StepOK_trans hs3 hpush.2), ?_⟩
          exact lt_of_lt_of_le (hin r rfl)
            (regBound_mono (StepOK_trans hs1 (StepOK_trans hs3 hpush.2)))
    | none =>
        have h2 : (match e.resolve (c1.reserve_regs 1).2 with
          | none => none
          | some c3 => some ((ExprResult.new_temp_reg (c1.reserve_regs 1).1 : ExprResult),
              ({ c3 with proto :=
                (c3.proto.code_un_op op (c1.reserve_regs 1).1 src).2 } : ProtoContext)))
            = some (res, c') := by
          rw [← h]
          unfold Compiler.code_un_op
          rw [hrk]
        obtain ⟨hi2, hs2, hfst, hrt, hmt⟩ := reserve_regs_ok c1 1 hi1
        have htlt : (c1.reserve_regs 1).1 < regBound (c1.reserve_regs 1).2 := by
          have : (c1.reserve_regs 1).2.reg_top ≤ (c1.reserve_regs 1).2.max_top := hi2.1
          have hb : (c1.reserve_regs 1).2.max_top ≤ regBound (c1.reserve_regs 1).2 :=
            le_max_left _ _
          omega
        rcases hrv : e.resolve (c1.reserve_regs 1).2 with _ | c3
        · rw [hrv] at h2
          exact Option.noConfusion h2
        · rw [hrv] at h2
          have h3 : some ((ExprResult.new_temp_reg (c1.reserve_regs 1).1 : ExprResult),
              ({ c3 with proto :=
                (c3.proto.code_un_op op (c1.reserve_regs 1).1 src).2 } : ProtoContext))
            = some (res, c') := h2
          injection h3 with h3
          obtain ⟨hv, hc⟩ := Prod.mk.injEq _ _ _ _ |>.mp h3
          subst hv
          subst hc
          obtain ⟨hi3, hs3⟩ := expr_resolve_ok e (c1.reserve_regs 1).2 c3 hrv hi2
            (ResOK_mono (ResOK_mono hres hs1) hs2)
          have hpush := push_instr_ok c3
            (Instruction.create_ABC (Proto.un_opcode op) (c1.reserve_regs 1).1 src 0)
            (create_ABC_bits _ _ _ _)
            (create_ABC_rk_ok_small _ _ _ _ c3
              (rk_ok_mono (rk_ok_mono hrk1 hs2) hs3) (by omega)) hi3
          refine ⟨hpush.1,
            StepOK_trans hs1 (StepOK_trans hs2 (StepOK_trans hs3 hpush.2)), ?_⟩
          exact lt_of_lt_of_le htlt
            (regBound_mono (StepOK_trans hs3 hpush.2))

theorem code_comp_inv (op : BinOp) (target : ExprResult) (l r : Nat)
    (c : ProtoContext) (res : ExprResult) (c' : ProtoContext)
    (h : Compiler.code_comp op target l r c = some (res, c'))
    (hInv : Inv c) (htar : ResOK target c)
    (hl : rk_ok l c) (hr : rk_ok r c) :
    Inv c' ∧ StepOK c c' ∧ ResOK res c' := by
  cases target with
  | Const k => exact Option.noConfusion h
  | Nil => exact Option.noConfusion h
  | True => exact Option.noConfusion h
  | False => exact Option.noConfusion h
  | Jump j => exact Option.noConfusion h
  | Reg reg =>
    cases op with
  | Add => exact Option.noConfusion h
  | Minus => exact Option.noConfusion h
  | Mul => exact Option.noConfusion h
  | Div => exact Option.noConfusion h
  | IDiv => exact Option.noConfusion h
  | Mod => exact Option.noConfusion h
  | Pow => exact Option.noConfusion h
  | Concat => exact Option.noConfusion h
  | BAnd => exact Option.noConfusion h
  | BOr => exact Option.noConfusion h
  | BXor => exact Option.noConfusion h
  | Shl => exact Option.noConfusion h
  | Shr => exact Option.noConfusion h
  | And => exact Option.noConfusion h
  | Or => exact Option.noConfusion h
  | Eq =>
      have h2 : some ((ExprResult.new_jump reg
          (((c.proto.code ++ [Instruction.create_ABC .Eq 1 l r]) ++
            [Instruction.create_AsBx .Jmp 0 NO_JUMP]).length - 1) : ExprResult),
          ({ c with proto := { c.proto with code :=
            ((c.proto.code ++ [Instruction.create_ABC .Eq 1 l r]) ++
            [Instruction.create_AsBx .Jmp 0 NO_JUMP]) } } : ProtoContext)) = some (res, c') := h
      injection h2 with h2
      obtain ⟨hv, hc⟩ := Prod.mk.injEq _ _ _ _ |>.mp h2
      subst hv
      subst hc
      have hp := push2_instr_ok c (Instruction.create_ABC .Eq 1 l r)
        (Instruction.create_AsBx .Jmp 0 NO_JUMP)
        (create_ABC_bits _ _ _ _) (create_AsBx_bits _ _ _)
        (create_ABC_rk_ok _ _ _ _ c hl hr) (non_rk_instr_ok _ _ _ rfl) hInv
      refine ⟨hp.1, hp.2, lt_of_lt_of_le htar (regBound_mono hp.2),
        Instruction.create_AsBx .Jmp 0 NO_JUMP, ?_, rfl⟩
      show ((c.proto.code ++ [Instruction.create_ABC .Eq 1 l r]) ++
          [Instruction.create_AsBx .Jmp 0 NO_JUMP]).get?
        (((c.proto.code ++ [Instruction.create_ABC .Eq 1 l r]) ++
          [Instruction.create_AsBx .Jmp 0 NO_JUMP]).length - 1) = _
      rw [show ((c.proto.code ++ [Instruction.create_ABC .Eq 1 l r]) ++
          [Instruction.create_AsBx .Jmp 0 NO_JUMP]).length - 1 =
          (c.proto.code ++ [Instruction.create_ABC .Eq 1 l r]).length by simp]
      exact get?_concat_self _ _
  | Ne =>
      have h2 : some ((ExprResult.new_jump reg
          (((c.proto.code ++ [Instruction.create_ABC .Eq 0 l r]) ++
            [Instruction.create_AsBx .Jmp 0 NO_JUMP]).length - 1) : ExprResult),
          ({ c with proto := { c.proto with code :=
            ((c.proto.code ++ [Instruction.create_ABC .Eq 0 l r]) ++
            [Instruction.create_AsBx .Jmp 0 NO_JUMP]) } } : ProtoContext)) = some (res, c') := h
      injection h2 with h2
      obtain ⟨hv, hc⟩ := Prod.mk.injEq _ _ _ _ |>.mp h2
      subst hv
      subst hc
      have hp := push2_instr_ok c (Instruction.create_ABC .Eq 0 l r)
        (Instruction.create_AsBx .Jmp 0 NO_JUMP)
        (create_ABC_bits _ _ _ _) (create_AsBx_bits _ _ _)
        (create_ABC_rk_ok _ _ _ _ c hl hr) (non_rk_instr_ok _ _ _ rfl) hInv
      refine ⟨hp.1, hp.2, lt_of_lt_of_le htar (regBound_mono hp.2),
        Instruction.create_AsBx .Jmp 0 NO_JUMP, ?_, rfl⟩
      show ((c.proto.code ++ [Instruction.create_ABC .Eq 0 l r]) ++
          [Instruction.create_AsBx .Jmp 0 NO_JUMP]).get?
        (((c.proto.code ++ [Instruction.create_ABC .Eq 0 l r]) ++
          [Instruction.create_AsBx .Jmp 0 NO_JUMP]).length - 1) = _
      rw [show ((c.proto.code ++ [Instruction.create_ABC .Eq 0 l r]) ++
          [Instruction.create_AsBx .Jmp 0 NO_JUMP]).length - 1 =
          (c.proto.code ++ [Instruction.create_ABC .Eq 0 l r]).length by simp]
      exact get?_concat_self _ _
  | Lt =>
      have h2 : some ((ExprResult.new_jump reg
          (((c.proto.code ++ [Instruction.create_ABC .Lt 1 l r]) ++
            [Instruction.create_AsBx .Jmp 0 NO_JUMP]).length - 1) : ExprResult),
          ({ c with proto := { c.proto with code :=
            ((c.proto.code ++ [Instruction.create_ABC .Lt 1 l r]) ++
            [Instruction.create_AsBx .Jmp 0 NO_JUMP]) } } : ProtoContext)) = some (res, c') := h
      injection h2 with h2
      obtain ⟨hv, hc⟩ := Prod.mk.injEq _ _ _ _ |>.mp h2
      subst hv
      subst hc
      have hp := push2_instr_ok c (Instruction.create_ABC .Lt 1 l r)
        (Instruction.create_AsBx .Jmp 0 NO_JUMP)
        (create_ABC_bits _ _ _ _) (create_AsBx_bits _ _ _)
        (create_ABC_rk_ok _ _ _ _ c hl hr) (non_rk_instr_ok _ _ _ rfl) hInv
      refine ⟨hp.1, hp.2, lt_of_lt_of_le htar (regBound_mono hp.2),
        Instruction.create_AsBx .Jmp 0 NO_JUMP, ?_, rfl⟩
      show ((c.proto.code ++ [Instruction.create_ABC .Lt 1 l r]) ++
          [Instruction.create_AsBx .Jmp 0 NO_JUMP]).get?
        (((c.proto.code ++ [Instruction.create_ABC .Lt 1 l r]) ++
          [Instruction.create_AsBx .Jmp 0 NO_JUMP]).length - 1) = _
      rw [show ((c.proto.code ++ [Instruction.create_ABC .Lt 1 l r]) ++
          [Instruction.create_AsBx .Jmp 0 NO_JUMP]).length - 1 =
          (c.proto.code ++ [Instruction.create_ABC .Lt 1 l r]).length by simp]
      exact get?_concat_self _ _
  | Le =>
      have h2 : some ((ExprResult.new_jump reg
          (((c.proto.code ++ [Instruction.create_ABC .Le 1 l r]) ++
            [Instruction.create_AsBx .Jmp 0 NO_JUMP]).length - 1) : ExprResult),
          ({ c with proto := { c.proto with code :=
            ((c.proto.code ++ [Instruction.create_ABC .Le 1 l r]) ++
            [Instruction.create_AsBx .Jmp 0 NO_JUMP]) } } : ProtoContext)) = some (res, c') := h
      injection h2 with h2
      obtain ⟨hv, hc⟩ := Prod.mk.injEq _ _ _ _ |>.mp h2
      subst hv
      subst hc
      have hp := push2_instr_ok c (Instruction.create_ABC .Le 1 l r)
        (Instruction.create_AsBx .Jmp 0 NO_JUMP)
        (create_ABC_bits _ _ _ _) (create_AsBx_bits _ _ _)
        (create_ABC_rk_ok _ _ _ _ c hl hr) (non_rk_instr_ok _ _ _ rfl) hInv
      refine ⟨hp.1, hp.2, lt_of_lt_of_le htar (regBound_mono hp.2),
        Instruction.create_AsBx .Jmp 0 NO_JUMP, ?_, rfl⟩
      show ((c.proto.code ++ [Instruction.create_ABC .Le 1 l r]) ++
          [Instruction.create_AsBx .Jmp 0 NO_JUMP]).get?
        (((c.proto.code ++ [Instruction.create_ABC .Le 1 l r]) ++
          [Instruction.create_AsBx .Jmp 0 NO_JUMP]).length - 1) = _
      rw [show ((c.proto.code ++ [Instruction.create_ABC .Le 1 l r]) ++
          [Instruction.create_AsBx .Jmp 0 NO_JUMP]).length - 1 =
          (c.proto.code ++ [Instruction.create_ABC .Le 1 l r]).length by simp]
      exact get?_concat_self _ _
  | Gt =>
      have h2 : some ((ExprResult.new_jump reg
          (((c.proto.code ++ [Instruction.create_ABC .Lt 1 r l]) ++
            [Instruction.create_AsBx .Jmp 0 NO_JUMP]).length - 1) : ExprResult),
          ({ c with proto := { c.proto with code :=
            ((c.proto.code ++ [Instruction.create_ABC .Lt 1 r l]) ++
            [Instruction.create_AsBx .Jmp 0 NO_JUMP]) } } : ProtoContext)) = some (res, c') := h
      injection h2 with h2
      obtain ⟨hv, hc⟩ := Prod.mk.injEq _ _ _ _ |>.mp h2
      subst hv
      subst hc
      have hp := push2_instr_ok c (Instruction.create_ABC .Lt 1 r l)
        (Instruction.create_AsBx .Jmp 0 NO_JUMP)
        (create_ABC_bits _ _ _ _) (create_AsBx_bits _ _ _)
        (create_ABC_rk_ok _ _ _ _ c hr hl) (non_rk_instr_ok _ _ _ rfl) hInv
      refine ⟨hp.1, hp.2, lt_of_lt_of_le htar (regBound_mono hp.2),
        Instruction.create_AsBx .Jmp 0 NO_JUMP, ?_, rfl⟩
      show ((c.proto.code ++ [Instruction.create_ABC .Lt 1 r l]) ++
          [Instruction.create_AsBx .Jmp 0 NO_JUMP]).get?
        (((c.proto.code ++ [Instruction.create_ABC .Lt 1 r l]) ++
          [Instruction.create_AsBx .Jmp 0 NO_JUMP]).length - 1) = _
      rw [show ((c.proto.code ++ [Instruction.create_ABC .Lt 1 r l]) ++
          [Instruction.create_AsBx .Jmp 0 NO_JUMP]).length - 1 =
          (c.proto.code ++ [Instruction.create_ABC .Lt 1 r l]).length by simp]
      exact get?_concat_self _ _
  | Ge =>
      have h2 : some ((ExprResult.new_jump reg
          (((c.proto.code ++ [Instruction.create_ABC .Le 1 r l]) ++
            [Instruction.create_AsBx .Jmp 0 NO_JUMP]).length - 1) : ExprResult),
          ({ c with proto := { c.proto with code :=
            ((c.proto.code ++ [Instruction.create_ABC .Le 1 r l]) ++
            [Instruction.create_AsBx .Jmp 0 NO_JUMP]) } } : ProtoContext)) = some (res, c') := h
      injection h2 with h2
      obtain ⟨hv, hc⟩ := Prod.mk.injEq _ _ _ _ |>.mp h2
      subst hv
      subst hc
      have hp := push2_instr_ok c (Instruction.create_ABC .Le 1 r l)
        (Instruction.create_AsBx .Jmp 0 NO_JUMP)
        (create_ABC_bits _ _ _ _) (create_AsBx_bits _ _ _)
        (create_ABC_rk_ok _ _ _ _ c hr hl) (non_rk_instr_ok _ _ _ rfl) hInv
      refine ⟨hp.1, hp.2, lt_of_lt_of_le htar (regBound_mono hp.2),
        Instruction.create_AsBx .Jmp 0 NO_JUMP, ?_, rfl⟩
      show ((c.proto.code ++ [Instruction.create_ABC .Le 1 r l]) ++
          [Instruction.create_AsBx .Jmp 0 NO_JUMP]).get?
        (((c.proto.code ++ [Instruction.create_ABC .Le 1 r l]) ++
          [Instruction.create_AsBx .Jmp 0 NO_JUMP]).length - 1) = _
      rw [show ((c.proto.code ++ [Instruction.create_ABC .Le 1 r l]) ++
          [Instruction.create_AsBx .Jmp 0 NO_JUMP]).length - 1 =
          (c.proto.code ++ [Instruction.create_ABC .Le 1 r l]).length by simp]
      exact get?_concat_self _ _

theorem InOK_of_cases {a input : Option Nat} {c : ProtoContext}
    (hin : InOK input c) (hcase : a = none ∨ a = input) : InOK a c := by
  rcases hcase with rfl | rfl
  · exact fun _ hr => Option.noConfusion hr
  · exact hin

theorem right_input_cases (input : Option Nat) (left : ExprResult) :
    (match input with
      | some input_reg =>
          (match left with
          | ExprResult.Reg r =>
              if (!Compiler.is_input_reusable r.reg input_reg) = true then none
              else input
          | ExprResult.Jump j =>
              if (!Compiler.is_input_reusable j.reg.reg input_reg) = true then none
              else input
          | _ => input)
      | none => none) = none ∨
    (match input with
      | some input_reg =>
          (match left with
          | ExprResult.Reg r =>
              if (!Compiler.is_input_reusable r.reg input_reg) = true then none
              else input
          | ExprResult.Jump j =>
              if (!Compiler.is_input_reusable j.reg.reg input_reg) = true then none
              else input
          | _ => input)
      | none => none) = input := by
  cases input with
  | none => exact Or.inl rfl
  | some input_reg =>
      cases left with
      | Reg r =>
          dsimp only
          split
          · exact Or.inl rfl
          · exact Or.inr rfl
      | Jump j =>
          dsimp only
          split
          · exact Or.inl rfl
          · exact Or.inr rfl
      | Const k => exact Or.inr rfl
      | Nil => exact Or.inr rfl
      | True => exact Or.inr rfl
      | False => exact Or.inr rfl

/-- Simultaneous invariant preservation for the five mutually recursive
expression-lowering functions, by induction on the fuel. -/
theorem compile_inv (fuel : Nat) :
    (∀ e input c res c', Compiler.expr fuel e input c = some (res, c') →
      Inv c → InOK input c → Inv c' ∧ StepOK c c' ∧ ResOK res c') ∧
    (∀ e input c res c', Compiler.folding_or_code fuel e input c = some (res, c') →
      Inv c → InOK input c → Inv c' ∧ StepOK c c' ∧ ResOK res c') ∧
    (∀ e input c res c', Compiler.code_expr fuel e input c = some (res, c') →
      Inv c → InOK input c → Inv c' ∧ StepOK c c' ∧ ResOK res c') ∧
    (∀ op input le re c res c',
      Compiler.code_bin_op fuel op input le re c = some (res, c') →
      Inv c → InOK input c → Inv c' ∧ StepOK c c' ∧ ResOK res c') ∧
    (∀ input e c res c', Compiler.code_not fuel input e c = some (res, c') →
      Inv c → InOK input c → Inv c' ∧ StepOK c c' ∧ ResOK res c') := by
  induction fuel with
  | zero =>
      refine ⟨?_, ?_, ?_, ?_, ?_⟩
      · intro e input c res c' h _ _
        exact Option.noConfusion h
      · intro e input c res c' h _ _
        exact Option.noConfusion h
      · intro e input c res c' h _ _
        exact Option.noConfusion h
      · intro op input le re c res c' h _ _
        exact Option.noConfusion h
      · intro input e c res c' h _ _
        exact Option.noConfusion h
  | succ n ih =>
      obtain ⟨ihE, ihF, ihC, ihB, ihN⟩ := ih
      refine ⟨?_, ?_, ?_, ?_, ?_⟩
      -- expr
      · intro e input c res c' h hInv hin
        cases e with
        | Int i =>
            injection h with h
            obtain ⟨hv, hc⟩ := Prod.mk.injEq _ _ _ _ |>.mp h
            subst hv
            subst hc
            exact ⟨hInv, StepOK_refl c, trivial⟩
        | Float f =>
            injection h with h
            obtain ⟨hv, hc⟩ := Prod.mk.injEq _ _ _ _ |>.mp h
            subst hv
            subst hc
            exact ⟨hInv, StepOK_refl c, trivial⟩
        | String str =>
            injection h with h
            obtain ⟨hv, hc⟩ := Prod.mk.injEq _ _ _ _ |>.mp h
            subst hv
            subst hc
            obtain ⟨hi, hs, _⟩ := add_const_ok c (.Str str) hInv
            exact ⟨hi, hs, trivial⟩
        | Nil =>
            injection h with h
            obtain ⟨hv, hc⟩ := Prod.mk.injEq _ _ _ _ |>.mp h
            subst hv
            subst hc
            exact ⟨hInv, StepOK_refl c, trivial⟩
        | True =>
            injection h with h
            obtain ⟨hv, hc⟩ := Prod.mk.injEq _ _ _ _ |>.mp h
            subst hv
            subst hc
            exact ⟨hInv, StepOK_refl c, trivial⟩
        | False =>
            injection h with h
            obtain ⟨hv, hc⟩ := Prod.mk.injEq _ _ _ _ |>.mp h
            subst hv
            subst hc
            exact ⟨hInv, StepOK_refl c, trivial⟩
        | Name name =>
            have h2 : (match c.proto.get_local_var name with
              | some src => some ((ExprResult.new_const_reg src : ExprResult), c)
              | none => none) = some (res, c') := h
            rcases hsrc : c.proto.get_local_var name with _ | src
            · rw [hsrc] at h2
              exact Option.noConfusion h2
            · rw [hsrc] at h2
              have h3 : some ((ExprResult.new_const_reg src : ExprResult), c)
                  = some (res, c') := h2
              injection h3 with h3
              obtain ⟨hv, hc⟩ := Prod.mk.injEq _ _ _ _ |>.mp h3
              subst hv
              subst hc
              refine ⟨hInv, StepOK_refl c, ?_⟩
              exact lt_of_lt_of_le (position_lt name c.proto.local_vars src hsrc)
                (le_max_right _ _)
        | BinExpr op l r => exact ihF (.BinExpr op l r) input c res c' h hInv hin
        | UnExpr op e0 => exact ihF (.UnExpr op e0) input c res c' h hInv hin
        | ParenExpr inner => exact ihF inner input c res c' h hInv hin
      -- folding_or_code
      · intro e input c res c' h hInv hin
        unfold Compiler.folding_or_code at h
        split at h
        · exact Option.noConfusion h
        · rename_i k hk
          injection h with h
          obtain ⟨hv, hc⟩ := Prod.mk.injEq _ _ _ _ |>.mp h
          subst hv
          subst hc
          exact ⟨hInv, StepOK_refl c, trivial⟩
        · exact ihC e input c res c' h hInv hin
      -- code_expr
      · intro e input c res c' h hInv hin
        cases e with
        | BinExpr op l r => exact ihB op input l r c res c' h hInv hin
        | UnExpr op inner =>
            by_cases hop : op = UnOp.Not
            · subst hop
              exact ihN input inner c res c' h hInv hin
            · have h2 : (match Compiler.expr n inner input c with
                | none => none
                | some (result, c1) => Compiler.code_un_op op input result c1)
                  = some (res, c') := by
                rw [← h]
                show _ = (if op = UnOp.Not then Compiler.code_not n input inner c
                  else (match Compiler.expr n inner input c with
                    | none => none
                    | some (result, c1) => Compiler.code_un_op op input result c1))
                rw [if_neg hop]
              rcases hee : Compiler.expr n inner input c with _ | ⟨result, c1⟩
              · rw [hee] at h2
                exact Option.noConfusion h2
              · rw [hee] at h2
                have h3 : Compiler.code_un_op op input result c1 = some (res, c') := h2
                obtain ⟨hi1, hs1, hr1⟩ := ihE inner input c result c1 hee hInv hin
                obtain ⟨hi2, hs2, hr2⟩ :=
                  code_un_op_inv op input result c1 res c' h3 hi1 hr1 (InOK_mono hin hs1)
                exact ⟨hi2, StepOK_trans hs1 hs2, hr2⟩
        | ParenExpr inner => exact Option.noConfusion h
        | Int i => exact Option.noConfusion h
        | Float f => exact Option.noConfusion h
        | String str => exact Option.noConfusion h
        | Nil => exact Option.noConfusion h
        | True => exact Option.noConfusion h
        | False => exact Option.noConfusion h
        | Name name => exact Option.noConfusion h
      -- code_bin_op
      · intro op input le re c res c' h hInv hin
        unfold Compiler.code_bin_op at h
        split at h
        · exact Option.noConfusion h
        · rename_i left c1 hle
          obtain ⟨hi1, hs1, hrl⟩ := ihE le input c left c1 hle hInv hin
          split at h
          · exact Option.noConfusion h
          · rename_i c2 hrv1
            obtain ⟨hi2, hs2⟩ := expr_resolve_ok left c1 c2 hrv1 hi1 hrl
            simp only [] at h
            have hri := InOK_of_cases (InOK_mono hin (StepOK_trans hs1 hs2))
              (right_input_cases input left)
            split at h
            · exact Option.noConfusion h
            · rename_i right c3 hre
              obtain ⟨hi3, hs3, hrr⟩ := ihE re _ c2 right c3 hre hi2 hri
              split at h
              · exact Option.noConfusion h
              · rename_i c4 hrv2
                obtain ⟨hi4, hs4⟩ := expr_resolve_ok right c3 c4 hrv2 hi3 hrr
                have hs14 := StepOK_trans hs1 (StepOK_trans hs2 (StepOK_trans hs3 hs4))
                have hp5 : Inv (match input with
                    | some r => ((r, c4) : Nat × ProtoContext)
                    | none => c4.reserve_regs 1).2 ∧ StepOK c4 (match input with
                    | some r => ((r, c4) : Nat × ProtoContext)
                    | none => c4.reserve_regs 1).2 ∧
                    (match input with
                    | some r => ((r, c4) : Nat × ProtoContext)
                    | none => c4.reserve_regs 1).1 < regBound (match input with
                    | some r => ((r, c4) : Nat × ProtoContext)
                    | none => c4.reserve_regs 1).2 := by
                  cases input with
                  | some r =>
                      exact ⟨hi4, StepOK_refl c4,
                        lt_of_lt_of_le (hin r rfl) (regBound_mono hs14)⟩
                  | none =>
                      obtain ⟨hi5, hs5, hfst, hrt, hmt⟩ := reserve_regs_ok c4 1 hi4
                      refine ⟨hi5, hs5, ?_⟩
                      show (c4.reserve_regs 1).1 < regBound (c4.reserve_regs 1).2
                      have hd : (c4.reserve_regs 1).2.max_top ≤
                          regBound (c4.reserve_regs 1).2 := le_max_left _ _
                      omega
                obtain ⟨hi5, hs5, hreglt⟩ := hp5
                have hs15 := StepOK_trans hs14 hs5
                split at h
                · -- BinOp.And
                  unfold Compiler.code_and at h
                  split at h <;>
                    first
                      | exact Option.noConfusion h
                      | (injection h with h
                         obtain ⟨hv, hc⟩ := Prod.mk.injEq _ _ _ _ |>.mp h
                         subst hv
                         subst hc
                         exact ⟨hi5, hs15, ResOK_mono hrr (StepOK_trans hs4 hs5)⟩)
                · -- other binary operators
                  split at h
                  · -- comparison
                    split at h
                    · exact Option.noConfusion h
                    · rename_i left_rk c6 hgl
                      obtain ⟨hi6, hs6, hrkl⟩ := get_rk_ok left _ left_rk c6 hgl hi5
                        (ResOK_mono hrl (StepOK_trans hs2 (StepOK_trans hs3
                          (StepOK_trans hs4 hs5))))
                      split at h
                      · exact Option.noConfusion h
                      · rename_i right_rk c7 hgr
                        obtain ⟨hi7, hs7, hrkr⟩ := get_rk_ok right c6 right_rk c7 hgr hi6
                          (ResOK_mono hrr (StepOK_trans hs4 (StepOK_trans hs5 hs6)))
                        have htar : ResOK (if input.isSome = true then
                            ExprResult.new_reg (match input with
                    | some r => ((r, c4) : Nat × ProtoContext)
                    | none => c4.reserve_regs 1).1
                            else ExprResult.new_temp_reg (match input with
                    | some r => ((r, c4) : Nat × ProtoContext)
                    | none => c4.reserve_regs 1).1) c7 := by
                          have hbd : regBound (match input with
                    | some r => ((r, c4) : Nat × ProtoContext)
                    | none => c4.reserve_regs 1).2 ≤ regBound c7 :=
                            le_trans (regBound_mono hs6) (regBound_mono hs7)
                          split
                          · exact lt_of_lt_of_le hreglt hbd
                          · exact lt_of_lt_of_le hreglt hbd
                        obtain ⟨hi8, hs8, hr8⟩ := code_comp_inv op _ left_rk right_rk c7
                          res c' h hi7 htar (rk_ok_mono hrkl hs7) hrkr
                        exact ⟨hi8, StepOK_trans hs15 (StepOK_trans hs6
                          (StepOK_trans hs7 hs8)), hr8⟩
                  · -- arithmetic/bitwise/concat
                    split at h
                    · exact Option.noConfusion h
                    · rename_i left_rk c6 hgl
                      obtain ⟨hi6, hs6, hrkl⟩ := get_rk_ok left _ left_rk c6 hgl hi5
                        (ResOK_mono hrl (StepOK_trans hs2 (StepOK_trans hs3
                          (StepOK_trans hs4 hs5))))
                      split at h
                      · exact Option.noConfusion h
                      · rename_i right_rk c7 hgr
                        obtain ⟨hi7, hs7, hrkr⟩ := get_rk_ok right c6 right_rk c7 hgr hi6
                          (ResOK_mono hrr (StepOK_trans hs4 (StepOK_trans hs5 hs6)))
                        split at h
                        · exact Option.noConfusion h
                        · rename_i fst p' heqcb
                          injection h with h
                          obtain ⟨hv, hc⟩ := Prod.mk.injEq _ _ _ _ |>.mp h
                          subst hv
                          subst hc
                          rcases hoc : Proto.bin_opcode op with _ | oc
                          · unfold Proto.code_bin_op at heqcb
                            rw [hoc] at heqcb
                            exact Option.noConfusion heqcb
                          · unfold Proto.code_bin_op at heqcb
                            rw [hoc] at heqcb
                            have heq2 : some
                                (((c7.proto.code ++
                                  [Instruction.create_ABC oc (match input with
                    | some r => ((r, c4) : Nat × ProtoContext)
                    | none => c4.reserve_regs 1).1 left_rk
                                    right_rk]).length - 1 : Nat),
                                  ({ c7.proto with code := (c7.proto.code ++
                                    [Instruction.create_ABC oc (match input with
                    | some r => ((r, c4) : Nat × ProtoContext)
                    | none => c4.reserve_regs 1).1 left_rk
                                      right_rk]) } : Proto)) = some (fst, p') := heqcb
                            injection heq2 with heq2
                            obtain ⟨_, hp⟩ := Prod.mk.injEq _ _ _ _ |>.mp heq2
                            subst hp
                            have hpush := push_instr_ok c7
                              (Instruction.create_ABC oc (match input with
                    | some r => ((r, c4) : Nat × ProtoContext)
                    | none => c4.reserve_regs 1).1 left_rk right_rk)
                              (create_ABC_bits _ _ _ _)
                              (create_ABC_rk_ok _ _ _ _ c7 (rk_ok_mono hrkl hs7) hrkr)
                              hi7
                            refine ⟨hpush.1, StepOK_trans hs15 (StepOK_trans hs6
                              (StepOK_trans hs7 hpush.2)), ?_⟩
                            have hbd : regBound (match input with
                    | some r => ((r, c4) : Nat × ProtoContext)
                    | none => c4.reserve_regs 1).2 ≤ regBound
                                ({ c7 with proto := { c7.proto with code :=
                                  c7.proto.code ++ [Instruction.create_ABC oc
                                    (match input with
                    | some r => ((r, c4) : Nat × ProtoContext)
                    | none => c4.reserve_regs 1).1 left_rk right_rk] } }) :=
                              le_trans (regBound_mono hs6) (le_trans (regBound_mono hs7)
                                (regBound_mono hpush.2))
                            split
                            · exact lt_of_lt_of_le hreglt hbd
                            · exact lt_of_lt_of_le hreglt hbd
      -- code_not
      · intro input e c res c' h hInv hin
        unfold Compiler.code_not at h
        split at h
        · exact Option.noConfusion h
        · injection h with h
          obtain ⟨hv, hc⟩ := Prod.mk.injEq _ _ _ _ |>.mp h
          subst hv
          subst hc
          exact ⟨hInv, StepOK_refl c, trivial⟩
        · split at h
          · exact Option.noConfusion h
          · rename_i result c1 hee
            obtain ⟨hi1, hs1, hr1⟩ := ihE e input c result c1 hee hInv hin
            split at h
            · -- Jump
              rename_i j
              split at h
              · rename_i c2 hjinv
                injection h with h
                obtain ⟨hv, hc⟩ := Prod.mk.injEq _ _ _ _ |>.mp h
                subst hv
                subst hc
                obtain ⟨hi2, hs2⟩ := jump_inverse_ok j c1 c2 hjinv hi1
                exact ⟨hi2, StepOK_trans hs1 hs2, ResOK_mono hr1 hs2⟩
              · exact Option.noConfusion h
            · -- Nil
              injection h with h
              obtain ⟨hv, hc⟩ := Prod.mk.injEq _ _ _ _ |>.mp h
              subst hv
              subst hc
              exact ⟨hi1, hs1, trivial⟩
            · -- False
              injection h with h
              obtain ⟨hv, hc⟩ := Prod.mk.injEq _ _ _ _ |>.mp h
              subst hv
              subst hc
              exact ⟨hi1, hs1, trivial⟩
            · -- Const
              injection h with h
              obtain ⟨hv, hc⟩ := Prod.mk.injEq _ _ _ _ |>.mp h
              subst hv
              subst hc
              exact ⟨hi1, hs1, trivial⟩
            · -- True
              injection h with h
              obtain ⟨hv, hc⟩ := Prod.mk.injEq _ _ _ _ |>.mp h
              subst hv
              subst hc
              exact ⟨hi1, hs1, trivial⟩
            · -- register operand
              obtain ⟨hi2, hs2, hr2⟩ := code_un_op_inv .Not input _ c1 res c' h hi1 hr1
                (InOK_mono hin hs1)
              exact ⟨hi2, StepOK_trans hs1 hs2, hr2⟩

theorem dropLast_append_set {α : Type} (l : List α) (x : α) (h : l ≠ []) :
    l.dropLast ++ [x] = l.set (l.length - 1) x := by
  induction l with
  | nil => exact absurd rfl h
  | cons a t ih =>
      cases t with
      | nil => rfl
      | cons b t2 =>
          show a :: ((b :: t2).dropLast ++ [x]) =
            a :: ((b :: t2).set ((b :: t2).length - 1) x)
          rw [ih (by intro hh; exact List.noConfusion hh)]

theorem save_ok (c : ProtoContext) (target : Nat) (hInv : Inv c) :
    Inv { c with proto := (c.proto.save target).2 } ∧
      StepOK c { c with proto := (c.proto.save target).2 } := by
  rcases hl : c.proto.code.getLast? with _ | last
  · have he : c.proto.save target = (c.proto.code.length - 1, c.proto) := by
      unfold Proto.save
      rw [hl]
    rw [he]
    exact ⟨hInv, StepOK_refl c⟩
  · have he : c.proto.save target = (c.proto.code.length - 1,
        { c.proto with code := (c.proto.code.dropLast ++ [last.save target]) }) := by
      unfold Proto.save
      rw [hl]
    rw [he]
    have hne : c.proto.code ≠ [] := by
      intro hnil
      rw [hnil] at hl
      exact Option.noConfusion hl
    have hg : c.proto.code.get? (c.proto.code.length - 1) = some last := by
      rw [List.get?_eq_getElem?, ← List.getLast?_eq_getElem?]
      exact hl
    rw [dropLast_append_set _ _ hne]
    have hbi := hInv.2.2.2 last (List.get?_mem hg)
    exact set_instr_step c (c.proto.code.length - 1) last _ hg rfl
      (set_arg_A_bits last hbi.1 _) (set_arg_A_instr_ok last _ _ hbi.2 _) hInv

theorem esave_tail_inv (temp rg : Nat) (c4 : ProtoContext) (rr : Nat)
    (c' : ProtoContext)
    (h : (if temp ≠ rg then
        (match c4.free_reg 1 with
        | some c5 => some ((rg : Nat), c5)
        | none => none)
      else some ((rg : Nat), c4)) = some (rr, c'))
    (hInv : Inv c4) : Inv c' ∧ StepOK c4 c' := by
  split at h
  · rcases hf : c4.free_reg 1 with _ | c5
    · rw [hf] at h
      exact Option.noConfusion h
    · rw [hf] at h
      have h2 : some ((rg : Nat), c5) = some (rr, c') := h
      injection h2 with h2
      obtain ⟨hv, hc⟩ := Prod.mk.injEq _ _ _ _ |>.mp h2
      subst hc
      obtain ⟨hi, hs, _, _⟩ := free_reg_ok c4 1 c5 hf hInv
      exact ⟨hi, hs⟩
  · have h2 : some ((rg : Nat), c4) = some (rr, c') := h
    injection h2 with h2
    obtain ⟨hv, hc⟩ := Prod.mk.injEq _ _ _ _ |>.mp h2
    subst hc
    exact ⟨hInv, StepOK_refl c4⟩

theorem expr_and_save_inv (fuel : Nat) (e : Expr) (save_reg : Option Nat)
    (c : ProtoContext) (rr : Nat) (c' : ProtoContext)
    (h : Compiler.expr_and_save fuel e save_reg c = some (rr, c'))
    (hInv : Inv c) : Inv c' ∧ StepOK c c' := by
  unfold Compiler.expr_and_save at h
  simp only [] at h
  have hkey : Inv (if some (match save_reg with
      | some r => ((r, c) : Nat × ProtoContext)
      | none => c.reserve_regs 1).1 ≠ save_reg then (match save_reg with
      | some r => ((r, c) : Nat × ProtoContext)
      | none => c.reserve_regs 1)
      else (match save_reg with
      | some r => ((r, c) : Nat × ProtoContext)
      | none => c.reserve_regs 1).2.reserve_regs 1).2 ∧ StepOK c (if some (match save_reg with
      | some r => ((r, c) : Nat × ProtoContext)
      | none => c.reserve_regs 1).1 ≠ save_reg then (match save_reg with
      | some r => ((r, c) : Nat × ProtoContext)
      | none => c.reserve_regs 1)
      else (match save_reg with
      | some r => ((r, c) : Nat × ProtoContext)
      | none => c.reserve_regs 1).2.reserve_regs 1).2 ∧
      (if some (match save_reg with
      | some r => ((r, c) : Nat × ProtoContext)
      | none => c.reserve_regs 1).1 ≠ save_reg then (match save_reg with
      | some r => ((r, c) : Nat × ProtoContext)
      | none => c.reserve_regs 1)
      else (match save_reg with
      | some r => ((r, c) : Nat × ProtoContext)
      | none => c.reserve_regs 1).2.reserve_regs 1).1 < regBound (if some (match save_reg with
      | some r => ((r, c) : Nat × ProtoContext)
      | none => c.reserve_regs 1).1 ≠ save_reg then (match save_reg with
      | some r => ((r, c) : Nat × ProtoContext)
      | none => c.reserve_regs 1)
      else (match save_reg with
      | some r => ((r, c) : Nat × ProtoContext)
      | none => c.reserve_regs 1).2.reserve_regs 1).2 := by
    cases save_reg with
    | some r =>
        rw [if_neg (fun hne => hne rfl)]
        obtain ⟨hi, hs, hfst, hrt, hmt⟩ := reserve_regs_ok c 1 hInv
        refine ⟨hi, hs, ?_⟩
        show (c.reserve_regs 1).1 < regBound (c.reserve_regs 1).2
        have hd : (c.reserve_regs 1).2.max_top ≤ regBound (c.reserve_regs 1).2 :=
          le_max_left _ _
        omega
    | none =>
        rw [if_pos (Option.some_ne_none _)]
        obtain ⟨hi, hs, hfst, hrt, hmt⟩ := reserve_regs_ok c 1 hInv
        refine ⟨hi, hs, ?_⟩
        show (c.reserve_regs 1).1 < regBound (c.reserve_regs 1).2
        have hd : (c.reserve_regs 1).2.max_top ≤ regBound (c.reserve_regs 1).2 :=
          le_max_left _ _
        omega
  split at h
  · exact Option.noConfusion h
  · rename_i result c3 hee
    have hinT : InOK (some (if some (match save_reg with
      | some r => ((r, c) : Nat × ProtoContext)
      | none => c.reserve_regs 1).1 ≠ save_reg then (match save_reg with
      | some r => ((r, c) : Nat × ProtoContext)
      | none => c.reserve_regs 1)
      else (match save_reg with
      | some r => ((r, c) : Nat × ProtoContext)
      | none => c.reserve_regs 1).2.reserve_regs 1).1) (if some (match save_reg with
      | some r => ((r, c) : Nat × ProtoContext)
      | none => c.reserve_regs 1).1 ≠ save_reg then (match save_reg with
      | some r => ((r, c) : Nat × ProtoContext)
      | none => c.reserve_regs 1)
      else (match save_reg with
      | some r => ((r, c) : Nat × ProtoContext)
      | none => c.reserve_regs 1).2.reserve_regs 1).2 :=
      fun r hr => by
        injection hr with hr
        exact hr ▸ hkey.2.2
    obtain ⟨hi3, hs3, hr3⟩ := (compile_inv fuel).1 e _ _ result c3 hee hkey.1 hinT
    have hs03 : StepOK c c3 := StepOK_trans hkey.2.1 hs3
    cases result with
    | Const k =>
        obtain ⟨hiA, hsA, _⟩ := add_const_ok c3 k hi3
        have hpush := push_instr_ok { c3 with proto := (c3.proto.add_const k).2 }
          (Instruction.create_ABx .LoadK (match save_reg with
      | some r => ((r, c) : Nat × ProtoContext)
      | none => c.reserve_regs 1).1 (c3.proto.add_const k).1)
          (create_ABx_bits _ _ _) (non_rk_instr_ok _ _ _ rfl) hiA
        obtain ⟨hiT, hsT⟩ := esave_tail_inv _ _ _ _ _ h hpush.1
        exact ⟨hiT, StepOK_trans hs03
          (StepOK_trans hsA (StepOK_trans hpush.2 hsT))⟩
    | Reg src =>
        simp only [] at h
        cases hsc : src.is_const with
        | true =>
            rw [hsc] at h
            have hpush := push_instr_ok c3
              (Instruction.create_ABC .Move (match save_reg with
      | some r => ((r, c) : Nat × ProtoContext)
      | none => c.reserve_regs 1).1 src.reg 0)
              (create_ABC_bits _ _ _ _) (non_rk_instr_ok _ _ _ rfl) hi3
            obtain ⟨hiT, hsT⟩ := esave_tail_inv _ _ _ _ _ h hpush.1
            exact ⟨hiT, StepOK_trans hs03 (StepOK_trans hpush.2 hsT)⟩
        | false =>
            rw [hsc] at h
            have hsv := save_ok c3 (match save_reg with
      | some r => ((r, c) : Nat × ProtoContext)
      | none => c.reserve_regs 1).1 hi3
            obtain ⟨hiT, hsT⟩ := esave_tail_inv _ _ _ _ _ h hsv.1
            exact ⟨hiT, StepOK_trans hs03 (StepOK_trans hsv.2 hsT)⟩
    | True =>
        have hpush := push_instr_ok c3
          (Instruction.create_ABC .LoadBool (match save_reg with
      | some r => ((r, c) : Nat × ProtoContext)
      | none => c.reserve_regs 1).1 1 0)
          (create_ABC_bits _ _ _ _) (non_rk_instr_ok _ _ _ rfl) hi3
        obtain ⟨hiT, hsT⟩ := esave_tail_inv _ _ _ _ _ h hpush.1
        exact ⟨hiT, StepOK_trans hs03 (StepOK_trans hpush.2 hsT)⟩
    | False =>
        have hpush := push_instr_ok c3
          (Instruction.create_ABC .LoadBool (match save_reg with
      | some r => ((r, c) : Nat × ProtoContext)
      | none => c.reserve_regs 1).1 0 0)
          (create_ABC_bits _ _ _ _) (non_rk_instr_ok _ _ _ rfl) hi3
        obtain ⟨hiT, hsT⟩ := esave_tail_inv _ _ _ _ _ h hpush.1
        exact ⟨hiT, StepOK_trans hs03 (StepOK_trans hpush.2 hsT)⟩
    | Nil =>
        have hpush := push_instr_ok c3
          (Instruction.create_ABC .LoadNil (match save_reg with
      | some r => ((r, c) : Nat × ProtoContext)
      | none => c.reserve_regs 1).1 0 0)
          (create_ABC_bits _ _ _ _) (non_rk_instr_ok _ _ _ rfl) hi3
        obtain ⟨hiT, hsT⟩ := esave_tail_inv _ _ _ _ _ h hpush.1
        exact ⟨hiT, StepOK_trans hs03 (StepOK_trans hpush.2 hsT)⟩
    | Jump j =>
        simp only [] at h
        rcases hjr : j.resolve c3 with _ | c4
        · rw [hjr] at h
          exact Option.noConfusion h
        · rw [hjr] at h
          obtain ⟨hiJ, hsJ⟩ := jump_resolve_ok j c3 c4 hjr hi3 hr3
          obtain ⟨hiT, hsT⟩ := esave_tail_inv _ _ _ _ _ h hiJ
          exact ⟨hiT, StepOK_trans hs03 (StepOK_trans hsJ hsT)⟩

theorem adjust_assign_inv (num_left : Nat) (exprs : List Expr) (c : ProtoContext)
    (extra : Int) (c' : ProtoContext)
    (h : Compiler.adjust_assign num_left exprs c = some (extra, c'))
    (hInv : Inv c) : Inv c' ∧ StepOK c c' := by
  unfold Compiler.adjust_assign at h
  simp only [] at h
  split at h
  · exact Option.noConfusion h
  · split at h
    · injection h with h
      obtain ⟨hv, hc⟩ := Prod.mk.injEq _ _ _ _ |>.mp h
      subst hc
      obtain ⟨hiR, hsR, _, _, _⟩ := reserve_regs_ok c
        (((num_left : Int) - (exprs.length : Int)).toNat) hInv
      have hpush := push_instr_ok
        (c.reserve_regs (((num_left : Int) - (exprs.length : Int)).toNat)).2
        (Instruction.create_ABC .LoadNil c.get_reg_top
          ((((num_left : Int) - (exprs.length : Int)).toNat) - 1) 0)
        (create_ABC_bits _ _ _ _) (non_rk_instr_ok _ _ _ rfl) hiR
      exact ⟨hpush.1, StepOK_trans hsR hpush.2⟩
    · injection h with h
      obtain ⟨hv, hc⟩ := Prod.mk.injEq _ _ _ _ |>.mp h
      subst hc
      exact ⟨hInv, StepOK_refl c⟩

theorem save_exprs_inv (fuel : Nat) (exprs : List Expr) :
    ∀ c c', Compiler.save_exprs fuel exprs c = some c' →
      Inv c → Inv c' ∧ StepOK c c' := by
  induction exprs with
  | nil =>
      intro c c' h hInv
      injection h with h
      subst h
      exact ⟨hInv, StepOK_refl c⟩
  | cons e rest ih =>
      intro c c' h hInv
      unfold Compiler.save_exprs at h
      split at h
      · exact Option.noConfusion h
      · rename_i r1 c1 hes
        obtain ⟨hiE, hsE⟩ := expr_and_save_inv fuel e none c r1 c1 hes hInv
        obtain ⟨hi2, hs2⟩ := ih c1 c' h hiE
        exact ⟨hi2, StepOK_trans hsE hs2⟩

theorem add_local_ok (c : ProtoContext) (name : String) (hInv : Inv c) :
    Inv { c with proto := c.proto.add_local_var name } ∧
      StepOK c { c with proto := c.proto.add_local_var name } := by
  obtain ⟨h1, h2, h3, h4⟩ := hInv
  refine ⟨⟨h1, h2, h3, ?_⟩,
    le_refl _, le_refl _, le_refl _, ?_, le_refl _,
    fun _ ins hh => ⟨ins, hh, rfl⟩⟩
  · intro ins hins
    obtain ⟨hb, hok⟩ := h4 ins hins
    refine ⟨hb, instr_ok_mono hok (le_refl _)
      (max_le_max (le_refl _) ?_)⟩
    show c.proto.local_vars.length ≤ (c.proto.add_local_var name).local_vars.length
    simp [Proto.add_local_var]
  · show c.proto.local_vars.length ≤ (c.proto.add_local_var name).local_vars.length
    simp [Proto.add_local_var]

theorem add_locals_ok (names : List String) :
    ∀ c, Inv c →
      Inv { c with proto := names.foldl (fun p n => p.add_local_var n) c.proto } ∧
      StepOK c { c with proto := names.foldl (fun p n => p.add_local_var n) c.proto } := by
  induction names with
  | nil =>
      intro c hInv
      exact ⟨hInv, StepOK_refl c⟩
  | cons nm rest ih =>
      intro c hInv
      have h1 := add_local_ok c nm hInv
      have h2 := ih { c with proto := c.proto.add_local_var nm } h1.1
      exact ⟨h2.1, StepOK_trans h1.2 h2.2⟩

theorem local_stat_inv (fuel : Nat) (names : List String) (exprs : List Expr)
    (c c' : ProtoContext)
    (h : Compiler.local_stat fuel names exprs c = some c')
    (hInv : Inv c) : Inv c' ∧ StepOK c c' := by
  unfold Compiler.local_stat at h
  simp only [] at h
  split at h
  · exact Option.noConfusion h
  · rename_i c1 hse
    split at h
    · exact Option.noConfusion h
    · rename_i ex c2 haa
      injection h with h
      subst h
      have hL := add_locals_ok names c hInv
      obtain ⟨hi1, hs1⟩ := save_exprs_inv fuel exprs _ c1 hse hL.1
      obtain ⟨hi2, hs2⟩ := adjust_assign_inv names.length exprs c1 ex c2 haa hi1
      exact ⟨hi2, StepOK_trans hL.2 (StepOK_trans hs1 hs2)⟩

theorem assign_rhs_inv (fuel : Nat) (left : List Assignable) (rlen : Nat)
    (use_temp_reg : Bool) (rem : List Expr) :
    ∀ i to_move c out c',
      Compiler.assign_rhs fuel left rlen use_temp_reg i rem to_move c
        = some (out, c') →
      Inv c → Inv c' ∧ StepOK c c' := by
  induction rem with
  | nil =>
      intro i tm c out c' h hInv
      injection h with h
      obtain ⟨hv, hc⟩ := Prod.mk.injEq _ _ _ _ |>.mp h
      subst hc
      exact ⟨hInv, StepOK_refl c⟩
  | cons e rest ih =>
      intro i tm c out c' h hInv
      unfold Compiler.assign_rhs at h
      split at h
      · split at h
        · exact Option.noConfusion h
        · rename_i reg c1 hes
          obtain ⟨hiE, hsE⟩ := expr_and_save_inv fuel e none c reg c1 hes hInv
          split at h
          · split at h
            · exact Option.noConfusion h
            · rename_i a hga
              split at h
              · exact Option.noConfusion h
              · rename_i target hgt
                obtain ⟨hi2, hs2⟩ := ih (i+1) (tm ++ [(target, reg)]) c1 out c' h hiE
                exact ⟨hi2, StepOK_trans hsE hs2⟩
          · obtain ⟨hi2, hs2⟩ := ih (i+1) tm c1 out c' h hiE
            exact ⟨hi2, StepOK_trans hsE hs2⟩
      · split at h
        · exact Option.noConfusion h
        · rename_i a hga
          split at h
          · exact Option.noConfusion h
          · rename_i reg hgt
            split at h
            · exact Option.noConfusion h
            · rename_i r2 c1 hes
              obtain ⟨hiE, hsE⟩ := expr_and_save_inv fuel e (some reg) c r2 c1 hes hInv
              obtain ⟨hi2, hs2⟩ := ih (i+1) tm c1 out c' h hiE
              exact ⟨hi2, StepOK_trans hsE hs2⟩

theorem apply_moves_inv (moves : List (Nat × Nat)) :
    ∀ c c', Compiler.apply_moves moves c = some c' →
      Inv c → Inv c' ∧ StepOK c c' := by
  induction moves with
  | nil =>
      intro c c' h hInv
      injection h with h
      subst h
      exact ⟨hInv, StepOK_refl c⟩
  | cons hd rest ih =>
      intro c c' h hInv
      rcases hd with ⟨target, src⟩
      unfold Compiler.apply_moves at h
      simp only [] at h
      have hpush := push_instr_ok c (Instruction.create_ABC .Move target src 0)
        (create_ABC_bits _ _ _ _) (non_rk_instr_ok _ _ _ rfl) hInv
      split at h
      · exact Option.noConfusion h
      · rename_i c1 hf
        obtain ⟨hiF, hsF, _, _⟩ := free_reg_ok _ 1 c1 hf hpush.1
        obtain ⟨hi2, hs2⟩ := ih c1 c' h hiF
        exact ⟨hi2, StepOK_trans hpush.2 (StepOK_trans hsF hs2)⟩

theorem assign_stat_inv (fuel : Nat) (left : List Assignable)
    (right : List Expr) (c c' : ProtoContext)
    (h : Compiler.assign_stat fuel left right c = some c')
    (hInv : Inv c) : Inv c' ∧ StepOK c c' := by
  unfold Compiler.assign_stat at h
  simp only [] at h
  split at h
  · exact Option.noConfusion h
  · rename_i to_move c1 har
    obtain ⟨hi1, hs1⟩ := assign_rhs_inv fuel left right.length _ right 0 [] c
      to_move c1 har hInv
    split at h
    · exact Option.noConfusion h
    · rename_i extra c2 haa
      obtain ⟨hi2, hs2⟩ := adjust_assign_inv left.length right c1 extra c2 haa hi1
      split at h
      · exact Option.noConfusion h
      · rename_i to_move2 hmv
        split at h
        · exact Option.noConfusion h
        · rename_i c3 ham
          obtain ⟨hi3, hs3⟩ := apply_moves_inv to_move2.reverse c2 c3 ham hi2
          split at h
          · obtain ⟨hi4, hs4, _, _⟩ := free_reg_ok c3 _ c' h hi3
            exact ⟨hi4, StepOK_trans hs1 (StepOK_trans hs2
              (StepOK_trans hs3 hs4))⟩
          · injection h with h
            subst h
            exact ⟨hi3, StepOK_trans hs1 (StepOK_trans hs2 hs3)⟩

theorem walk_block_inv (fuel : Nat) (stats : List Stat) :
    ∀ c c', Compiler.walk_block fuel stats c = some c' →
      Inv c → Inv c' ∧ StepOK c c' := by
  induction stats with
  | nil =>
      intro c c' h hInv
      injection h with h
      subst h
      exact ⟨hInv, StepOK_refl c⟩
  | cons st rest ih =>
      intro c c' h hInv
      cases st with
      | LocalStat names exprs =>
          unfold Compiler.walk_block at h
          split at h
          · exact Option.noConfusion h
          · rename_i c1 hls
            obtain ⟨hi1, hs1⟩ := local_stat_inv fuel names exprs c c1 hls hInv
            obtain ⟨hi2, hs2⟩ := ih c1 c' h hi1
            exact ⟨hi2, StepOK_trans hs1 hs2⟩
      | AssignStat l r =>
          unfold Compiler.walk_block at h
          split at h
          · exact Option.noConfusion h
          · rename_i c1 has
            obtain ⟨hi1, hs1⟩ := assign_stat_inv fuel l r c c1 has hInv
            obtain ⟨hi2, hs2⟩ := ih c1 c' h hi1
            exact ⟨hi2, StepOK_trans hs1 hs2⟩

theorem main_func_inv (fuel : Nat) (block : List Stat) (c c' : ProtoContext)
    (h : Compiler.main_func fuel block c = some c')
    (hInv : Inv c) : Inv c' ∧ StepOK c c' := by
  unfold Compiler.main_func at h
  split at h
  · exact Option.noConfusion h
  · rename_i c1 hwb
    injection h with h
    subst h
    obtain ⟨hi1, hs1⟩ := walk_block_inv fuel block c c1 hwb hInv
    have hpush := push_instr_ok c1 (Instruction.create_ABC .Return 0 1 0)
      (create_ABC_bits _ _ _ _) (non_rk_instr_ok _ _ _ rfl) hi1
    exact ⟨hpush.1, StepOK_trans hs1 hpush.2⟩

/-- The fresh context of `Compiler::run` satisfies the compile-time
invariant. -/
theorem Inv_new : Inv ProtoContext.new := by
  refine ⟨Nat.le_refl 0, by decide, ?_, ?_⟩
  · intro k i hh
    exact Option.noConfusion hh
  · intro ins hins
    exact absurd hins (List.not_mem_nil _)

/-- Claim C1, amended: for every block compiled successfully by
`main_func` from the fresh context, the final `stack_size` is at least
`max_top` — the ghost supremum of every value `reg_top` takes during
compilation — so the stack size covers every register the compiler
touched.  The original claim's second half, `reg_top = 0` at the end of
the top-level compile, is false: see the counterexample. -/
theorem C1_stack_high_water (fuel : Nat) (block : List Stat)
    (c' : ProtoContext)
    (h : Compiler.main_func fuel block ProtoContext.new = some c') :
    c'.reg_top ≤ c'.max_top ∧ c'.max_top ≤ c'.proto.stack_size := by
  obtain ⟨hi, _⟩ := main_func_inv fuel block ProtoContext.new c' h Inv_new
  exact ⟨hi.1, hi.2.1⟩

/-- Witness: compiling `local a = 1` succeeds and the bounds of
`C1_stack_high_water` hold on its concrete output. -/
theorem C1_witness : (1 : Nat) ≤ 1 ∧ (1 : Nat) ≤ 2 :=
  C1_stack_high_water (Compiler.block_fuel [Stat.LocalStat ["a"] [Expr.Int 1]])
    [Stat.LocalStat ["a"] [Expr.Int 1]]
    ({ reg_top := 1, max_top := 1, proto :=
      { stack_size := 2, param_count := 0,
        code := [⟨.LoadK, 0, 0⟩, ⟨.Return, 0, 512⟩],
        consts := [.Int 1], const_map := [(.Int 1, 0)],
        local_vars := [⟨"a"⟩] } } : ProtoContext)
    (by decide)

/-- Counterexample to the second half of claim C1: after compiling
`local a` (a local declaration padded with one `LoadNil`), the top-level
compile finishes with `reg_top = 1`, not `0` — the register holding the
local variable is never freed. -/
theorem C1_counterexample :
    (Compiler.main_func (Compiler.block_fuel [Stat.LocalStat ["a"] []])
      [Stat.LocalStat ["a"] []] ProtoContext.new).map ProtoContext.reg_top
      = some 1 ∧ (1 : Nat) ≠ 0 :=
  ⟨by decide, by decide⟩

/-- Claim C2, amended: in every context produced by a successful
`main_func` run from the fresh context, and provided the register bound
(the ghost register high-water mark and the local count) stays at most
256, every B or C operand of an emitted RK-carrying instruction that has
bit `MASK_K` (`1 <<< 8`) set decodes, after clearing that bit, to an
index below the length of `consts` and below 256.  The boundedness
proviso is necessary: a register index of 256 or more sets the same bit
without denoting a constant — see the counterexample. -/
theorem C2_rk_operands (fuel : Nat) (block : List Stat) (c' : ProtoContext)
    (h : Compiler.main_func fuel block ProtoContext.new = some c')
    (hrb : regBound c' ≤ 256) :
    ∀ ins ∈ c'.proto.code, isRKOp ins.op = true →
      (256 ≤ ins.get_arg_B →
        ins.get_arg_B - 256 < c'.proto.consts.length ∧
        ins.get_arg_B - 256 < 256) ∧
      (256 ≤ ins.get_arg_C →
        ins.get_arg_C - 256 < c'.proto.consts.length ∧
        ins.get_arg_C - 256 < 256) := by
  intro ins hins hrk
  obtain ⟨hi, _⟩ := main_func_inv fuel block ProtoContext.new c' h Inv_new
  obtain ⟨hbits, hok⟩ := hi.2.2.2 ins hins
  obtain ⟨hB, hC⟩ := hok hrk
  have hbx := hbits.2
  constructor
  · intro hge
    refine ⟨hB hrb hge, ?_⟩
    have hb2 : ins.get_arg_B < 512 := by
      show ins.bx / 512 < 512
      omega
    omega
  · intro hge
    refine ⟨hC hrb hge, ?_⟩
    have hc2 : ins.get_arg_C < 512 := by
      show ins.bx % 512 < 512
      omega
    omega

/-- Witness: compiling `local a = 1 < 2` emits `Lt` with both operands
RK-tagged (`B = 256`, `C = 257`), and `C2_rk_operands` decodes them to
the constant indices 0 and 1, below the two-element `consts`. -/
theorem C2_witness :
    (256 ≤ (⟨.Lt, 1, 131329⟩ : Instruction).get_arg_B →
      (⟨.Lt, 1, 131329⟩ : Instruction).get_arg_B - 256 < 2 ∧
      (⟨.Lt, 1, 131329⟩ : Instruction).get_arg_B - 256 < 256) ∧
    (256 ≤ (⟨.Lt, 1, 131329⟩ : Instruction).get_arg_C →
      (⟨.Lt, 1, 131329⟩ : Instruction).get_arg_C - 256 < 2 ∧
      (⟨.Lt, 1, 131329⟩ : Instruction).get_arg_C - 256 < 256) :=
  C2_rk_operands
    (Compiler.block_fuel [Stat.LocalStat ["a"]
      [Expr.BinExpr .Lt (.Int 1) (.Int 2)]])
    [Stat.LocalStat ["a"] [Expr.BinExpr .Lt (.Int 1) (.Int 2)]]
    ({ reg_top := 1, max_top := 1, proto :=
      { stack_size := 2, param_count := 0,
        code := [⟨.Lt, 1, 131329⟩, ⟨.Jmp, 0, 131072⟩, ⟨.LoadBool, 0, 1⟩,
          ⟨.LoadBool, 0, 512⟩, ⟨.Return, 0, 512⟩],
        consts := [.Int 1, .Int 2],
        const_map := [(.Int 1, 0), (.Int 2, 1)],
        local_vars := [⟨"a"⟩] } } : ProtoContext)
    (by decide) (by decide)
    (⟨.Lt, 1, 131329⟩ : Instruction) (by decide) (by decide)

/-- Counterexample to the unconditional claim C2: with 257 declared
locals, `local ... , b = ...; b + b` emits an `Add` whose B operand is
register index 256 — bit `MASK_K` is set although `consts` is empty, so
the "decoded index" 0 is not below the length of `consts`. -/
theorem C2_counterexample :
    (Compiler.run [Stat.LocalStat (List.replicate 256 "a" ++ ["b"])
        [Expr.BinExpr .Add (.Name "b") (.Name "b")]]).any
      (fun p => p.code.any (fun ins => isRKOp ins.op &&
        decide (256 ≤ ins.get_arg_B) &&
        decide (p.consts.length ≤ ins.get_arg_B - 256))) = true := by
  decide

/-! ### Pending assignment moves (claim C9) -/

theorem apply_moves_spec (moves : List (Nat × Nat)) (c c' : ProtoContext)
    (h : Compiler.apply_moves moves c = some c') :
    c'.proto.code = c.proto.code ++
        moves.map (fun m => Instruction.create_ABC .Move m.1 m.2 0) ∧
    c'.reg_top + moves.length = c.reg_top ∧
    c'.max_top = c.max_top ∧
    c'.proto.stack_size = c.proto.stack_size ∧
    c'.proto.consts = c.proto.consts ∧
    c'.proto.local_vars = c.proto.local_vars := by
  induction moves generalizing c with
  | nil =>
      unfold Compiler.apply_moves at h
      injection h with h
      subst h
      simp
  | cons hd tl ih =>
      unfold Compiler.apply_moves at h
      rcases hd with ⟨target, src⟩
      simp only at h
      rcases hfr : ProtoContext.free_reg
          { c with proto := (c.proto.code_move target src).2 } 1 with _ | c1
      · rw [hfr] at h
        exact Option.noConfusion h
      · rw [hfr] at h
        have hc1 : c1 = { c with
            reg_top := c.reg_top - 1,
            proto := (c.proto.code_move target src).2 } ∧ 1 ≤ c.reg_top := by
          unfold ProtoContext.free_reg at hfr
          split at hfr
          · exact ⟨by injection hfr with h2; exact h2.symm, by assumption⟩
          · exact Option.noConfusion hfr
        rcases hc1 with ⟨rfl, hge⟩
        have hrec := ih _ h
        have hcode : c'.proto.code =
            (c.proto.code ++ [Instruction.create_ABC .Move target src 0]) ++
              tl.map (fun m => Instruction.create_ABC .Move m.1 m.2 0) := hrec.1
        have hreg : c'.reg_top + tl.length = c.reg_top - 1 := hrec.2.1
        refine ⟨?_, ?_, hrec.2.2.1, hrec.2.2.2.1, hrec.2.2.2.2.1, hrec.2.2.2.2.2⟩
        · rw [hcode, List.append_assoc]
          rfl
        · simp only [List.length_cons]
          omega

/-- Claim C9: the pending moves recorded by `assign_stat` are emitted by
`apply_moves` on the reversed list, i.e. as `Move` instructions in
exactly the reverse of the recording order, and exactly one register is
freed per emitted move. -/
theorem C9_assign_moves_reversed (moves : List (Nat × Nat))
    (c c' : ProtoContext)
    (h : Compiler.apply_moves moves.reverse c = some c') :
    c'.proto.code = c.proto.code ++
        (moves.map (fun m => Instruction.create_ABC .Move m.1 m.2 0)).reverse ∧
    c'.reg_top + moves.length = c.reg_top := by
  have hs := apply_moves_spec moves.reverse c c' h
  refine ⟨?_, ?_⟩
  · rw [hs.1, List.map_reverse]
  · have := hs.2.1
    simpa using this

/-- Witness for C9: applying the reverse of recorded moves
`[(5, 1), (6, 0)]` emits `Move 6 0` then `Move 5 1` and frees two
registers. -/
theorem C9_witness :
    Compiler.apply_moves [(5, 1), (6, 0)].reverse ⟨2, 2, Proto.default⟩ =
        some ⟨0, 2, { Proto.default with
          code := [Instruction.create_ABC .Move 6 0 0,
                   Instruction.create_ABC .Move 5 1 0] }⟩ ∧
    (⟨0, 2, { Proto.default with
        code := [Instruction.create_ABC .Move 6 0 0,
                 Instruction.create_ABC .Move 5 1 0] }⟩ : ProtoContext).proto.code =
      (⟨2, 2, Proto.default⟩ : ProtoContext).proto.code ++
        ([(5, 1), (6, 0)].map
          (fun m => Instruction.create_ABC .Move m.1 m.2 0)).reverse :=
  ⟨by decide,
   (C9_assign_moves_reversed [(5, 1), (6, 0)] ⟨2, 2, Proto.default⟩
      ⟨0, 2, { Proto.default with
        code := [Instruction.create_ABC .Move 6 0 0,
                 Instruction.create_ABC .Move 5 1 0] }⟩ (by decide)).1⟩

end Rslua
